import Mathlib

/-
Verification of the StateSnapshot scene-replication codec
(src/StateSnapshot.h, src/StateSnapshot.cpp).

Shallow embedding conventions:
- The wire buffer is a `List Nat` of tokens, one token per primitive write
  (WriteVLE / WriteUInt / WriteStringHash / WriteVariant / WriteVariantData).
  Urho3D deserializers return zero when reading past the end of a
  MemoryBuffer rather than raising an error; `rdNat` models this by
  returning 0 on the empty list.  `IsEof` is emptiness of the remaining
  token list.
- A scene is a forest of node trees (`List NTree`); the Scene object itself
  is the root of the forest and is represented by the forest, with the
  traversal parent passed as `Option Nat` (`none` = the scene root).
  Scene::GetNode / Scene::GetComponent are global id lookups, modelled by
  pre-order searches `findNodeF` / `findCompF`; the engine keeps ids unique,
  so first-match and all-match updates agree on well-formed scenes.
- Reflectable attributes: descriptors are per type.  `Ctx.nodeAttrs` is the
  (name, default) descriptor list shared by all nodes, `Ctx.compAttrs ty`
  the descriptor list of component type `ty`; an object stores only its
  value list, aligned positionally with its descriptor list.  The name
  `networkParentNode` stands for the "Network Parent Node" attribute.
- `Ctx.registered ty` models the component-type registry:
  Node::CreateComponent returns null exactly when the type is unregistered.
- An event log (`Evt`) is ghost instrumentation recording the calls the
  C++ performs (CreateChild, component Remove/Create, the unknown-component
  error, node removal, the one-shot smoothing snap); the code never
  branches on it.
- `read_node` recursion is bounded by a fuel argument; `read_state` passes
  fuel `buf.length + 1`, which exceeds the nesting depth any buffer can
  encode (each nesting level consumes at least one token).
-/

set_option maxHeartbeats 4000000 in
set_option maxHeartbeats 1000000 in
/-- One token read from a MemoryBuffer; reads past the end yield 0. -/
def rdNat : List Nat → Nat × List Nat
  | [] => (0, [])
  | x :: r => (x, r)

/-- Run a state step `n` times, modelling the `for (; n-- > 0;)` loops. -/
def iterRead {α : Type} (f : α → α) : Nat → α → α
  | 0, s => s
  | n + 1, s => iterRead f n (f s)

/-- A component: stable id, type hash, and its attribute values (aligned
with the descriptor list of its type). -/
structure Comp where
  id : Nat
  type : Nat
  attrs : List Nat
deriving DecidableEq, Repr

/-- A scene node: stable id, attribute values (aligned with the node
descriptor list), user variables, owned components, child nodes. -/
inductive NTree where
  | node (id : Nat) (attrs : List Nat) (vars : List (Nat × Nat))
      (comps : List Comp) (children : List NTree)

/-- Node id accessor. -/
def NTree.id : NTree → Nat
  | .node i _ _ _ _ => i

/-- Node attribute values accessor. -/
def NTree.attrs : NTree → List Nat
  | .node _ a _ _ _ => a

/-- Node user-variable accessor. -/
def NTree.vars : NTree → List (Nat × Nat)
  | .node _ _ v _ _ => v

/-- Node component-list accessor. -/
def NTree.comps : NTree → List Comp
  | .node _ _ _ c _ => c

/-- Node children accessor. -/
def NTree.children : NTree → List NTree
  | .node _ _ _ _ ch => ch

/-- Replace the attribute values of a node (OnSetAttribute over the whole list). -/
def setAttrsN (a : List Nat) : NTree → NTree
  | .node i _ v c ch => .node i a v c ch

/-- Replace the user variables of a node. -/
def setVarsN (v : List (Nat × Nat)) : NTree → NTree
  | .node i a _ c ch => .node i a v c ch

/-- Append a child (Node::CreateChild attaches at the end of the child list). -/
def appendChildN (d : NTree) : NTree → NTree
  | .node i a v c ch => .node i a v c (ch ++ [d])

/-- Append a component (Node::CreateComponent attaches at the end). -/
def appendCompN (c : Comp) : NTree → NTree
  | .node i a v cs ch => .node i a v (cs ++ [c]) ch

/-- The attribute-name of "Network Parent Node", the structural parent link. -/
def networkParentNode : Nat := 0

/-- External engine context: node/component attribute schemas (name,
default), the component-type registry, and the SmoothedTransform type hash. -/
structure Ctx where
  nodeAttrs : List (Nat × Nat)
  compAttrs : Nat → List (Nat × Nat)
  registered : Nat → Bool
  smoothedType : Nat

/-- The StateSnapshot registry: ids of the tracked nodes (weak references,
modelled as ids whose liveness is presence in the scene). -/
structure Snapshot where
  nodes : List Nat
deriving DecidableEq, Repr

/-- StateSnapshot::add_node. -/
def add_node (snap : Snapshot) (i : Nat) : Snapshot :=
  { nodes := snap.nodes ++ [i] }

/-- Ghost events recording the engine calls the decoder performs. -/
inductive Evt where
  | createNode (id : Nat)
  | initNode (id : Nat)
  | removeComp (id : Nat)
  | createComp (id : Nat)
  | abortComp (id : Nat)
  | removeNode (id : Nat)
deriving DecidableEq, Repr

/-- Decoder state: remaining buffer, live scene, unused-candidate set,
ghost event log. -/
structure RS where
  buf : List Nat
  scene : List NTree
  unused : List Nat
  log : List Evt

mutual
/-- Scene::GetNode restricted to one subtree (pre-order). -/
def findNodeT (i : Nat) : NTree → Option NTree
  | .node id a v c ch =>
    if id = i then some (.node id a v c ch) else findNodeF i ch
/-- Scene::GetNode over a forest (pre-order). -/
def findNodeF (i : Nat) : List NTree → Option NTree
  | [] => none
  | t :: ts =>
    match findNodeT i t with
    | some r => some r
    | none => findNodeF i ts
end

mutual
/-- Apply `f` to every node with id `i` in a subtree (ids are unique in
engine scenes, so this is the single in-place update). -/
def updNodeT (i : Nat) (f : NTree → NTree) : NTree → NTree
  | .node id a v c ch =>
    if id = i then f (.node id a v c ch)
    else .node id a v c (updNodeF i f ch)
/-- Apply `f` to every node with id `i` in a forest. -/
def updNodeF (i : Nat) (f : NTree → NTree) : List NTree → List NTree
  | [] => []
  | t :: ts => updNodeT i f t :: updNodeF i f ts
end

mutual
/-- Node::Remove for a node id inside a subtree: the node is detached and
destroyed together with all its descendants and components. -/
def removeNodeT (i : Nat) : NTree → NTree
  | .node id a v c ch => .node id a v c (removeNodeF i ch)
/-- Node::Remove over a forest. -/
def removeNodeF (i : Nat) : List NTree → List NTree
  | [] => []
  | t :: ts =>
    if t.id = i then removeNodeF i ts
    else removeNodeT i t :: removeNodeF i ts
end

mutual
/-- Scene::GetComponent inside one subtree: returns the owning node id and
the component. -/
def findCompT (ci : Nat) : NTree → Option (Nat × Comp)
  | .node id _ _ comps ch =>
    match comps.find? (fun c => c.id == ci) with
    | some c => some (id, c)
    | none => findCompF ci ch
/-- Scene::GetComponent over a forest. -/
def findCompF (ci : Nat) : List NTree → Option (Nat × Comp)
  | [] => none
  | t :: ts =>
    match findCompT ci t with
    | some r => some r
    | none => findCompF ci ts
end

mutual
/-- Component::Remove (by id) inside one subtree. -/
def removeCompT (ci : Nat) : NTree → NTree
  | .node id a v comps ch =>
    .node id a v (comps.filter (fun c => c.id ≠ ci)) (removeCompF ci ch)
/-- Component::Remove over a forest. -/
def removeCompF (ci : Nat) : List NTree → List NTree
  | [] => []
  | t :: ts => removeCompT ci t :: removeCompF ci ts
end

mutual
/-- Update every component with id `ci` in a subtree. -/
def updCompT (ci : Nat) (f : Comp → Comp) : NTree → NTree
  | .node id a v comps ch =>
    .node id a v (comps.map (fun c => if c.id = ci then f c else c))
      (updCompF ci f ch)
/-- Update every component with id `ci` in a forest. -/
def updCompF (ci : Nat) (f : Comp → Comp) : List NTree → List NTree
  | [] => []
  | t :: ts => updCompT ci f t :: updCompF ci f ts
end

/-- CreateChild: under the scene root (`none`) the node is appended to the
top level, otherwise to the children of the node with the parent id. -/
def createChild (parent : Option Nat) (d : NTree) (scene : List NTree) :
    List NTree :=
  match parent with
  | none => scene ++ [d]
  | some p => updNodeF p (appendChildN d) scene

/-- Node::CreateComponent: append a component to the node with id `nid`. -/
def addComp (nid : Nat) (c : Comp) (scene : List NTree) : List NTree :=
  updNodeF nid (appendCompN c) scene

/-- VariantMap insertion (Node::SetVar): replace the key in place or append. -/
def setVarL (k v : Nat) : List (Nat × Nat) → List (Nat × Nat)
  | [] => [(k, v)]
  | (q, w) :: r => if q = k then (k, v) :: r else (q, w) :: setVarL k v r

/-- StateSnapshot::write_network_attributes: write each attribute value in
descriptor order, skipping the "Network Parent Node" attribute. -/
def write_network_attributes : List (Nat × Nat) → List Nat → List Nat
  | [], _ => []
  | _ :: _, [] => []
  | (name, _) :: sr, v :: vr =>
    if name = networkParentNode then write_network_attributes sr vr
    else v :: write_network_attributes sr vr

/-- StateSnapshot::write_component: id, type, network attributes. -/
def write_component (ctx : Ctx) (c : Comp) : List Nat :=
  c.id :: c.type :: write_network_attributes (ctx.compAttrs c.type) c.attrs

/-- Serialize the component list of a node (in attach order). -/
def write_comps (ctx : Ctx) : List Comp → List Nat
  | [] => []
  | c :: cs => write_component ctx c ++ write_comps ctx cs

/-- Serialize the user variables (key then value for each entry). -/
def write_vars : List (Nat × Nat) → List Nat
  | [] => []
  | (k, v) :: r => k :: v :: write_vars r

mutual
/-- StateSnapshot::write_node: id, attributes, user variables (count then
entries), components (count then entries), children (count then entries). -/
def write_node (ctx : Ctx) : NTree → List Nat
  | .node i a v cs ch =>
    i :: (write_network_attributes ctx.nodeAttrs a
      ++ v.length :: write_vars v
      ++ cs.length :: write_comps ctx cs
      ++ ch.length :: write_nodesF ctx ch)
/-- StateSnapshot::write_child_nodes body: serialize a node list in order. -/
def write_nodesF (ctx : Ctx) : List NTree → List Nat
  | [] => []
  | t :: ts => write_node ctx t ++ write_nodesF ctx ts
end

/-- Serialize the tracked roots by id lookup (expired entries are gone by
the time this runs in write_state). -/
def write_roots (ctx : Ctx) (scene : List NTree) : List Nat → List Nat
  | [] => []
  | i :: r =>
    (match findNodeF i scene with
     | some t => write_node ctx t
     | none => []) ++ write_roots ctx scene r

/-- StateSnapshot::write_state: writes the registry size, then prunes
expired tracked entries, then serializes each remaining root.  NOTE: the
count is written from the registry before the prune, exactly as the
source does. -/
def write_state (ctx : Ctx) (snap : Snapshot) (scene : List NTree) :
    List Nat × Snapshot :=
  let count := snap.nodes.length
  let pruned := snap.nodes.filter (fun i => (findNodeF i scene).isSome)
  (count :: write_roots ctx scene pruned, { nodes := pruned })

/-- StateSnapshot::read_network_attributes: for each descriptor, stop if
the buffer is exhausted, skip the "Network Parent Node" descriptor, and
otherwise set the decoded value; returns the new value list and the
remaining buffer. -/
def read_network_attributes :
    List (Nat × Nat) → List Nat → List Nat → List Nat × List Nat
  | [], vals, buf => (vals, buf)
  | _ :: _, [], buf => ([], buf)
  | (name, _) :: sr, v :: vr, buf =>
    if buf.isEmpty then (v :: vr, buf)
    else if name = networkParentNode then
      let r := read_network_attributes sr vr buf
      (v :: r.1, r.2)
    else
      let x := rdNat buf
      let r := read_network_attributes sr vr x.2
      (x.1 :: r.1, r.2)

/-- One iteration of the user-variable loop in read_node: read key and
value, Node::SetVar. -/
def read_var_step (nid : Nat) (s : RS) : RS :=
  let k := rdNat s.buf
  let v := rdNat k.2
  { s with
    buf := v.2
    scene := updNodeF nid (fun n => setVarsN (setVarL k.1 v.1 n.vars) n) s.scene }

/-- StateSnapshot::read_component: read id and type, look the component up
globally; on id/type/owner mismatch remove the old component and create a
fresh one of the decoded type; if creation fails (unregistered type) log
the error and return without touching the attribute bytes; otherwise
decode and apply the attributes. -/
def read_component (ctx : Ctx) (nid : Nat) (s : RS) : RS :=
  let c0 := rdNat s.buf
  let c1 := rdNat c0.2
  let cid := c0.1
  let ty := c1.1
  let found := findCompF cid s.scene
  let isMatch : Bool :=
    match found with
    | some (owner, c) => c.type == ty && owner == nid
    | none => false
  if isMatch then
    let cur :=
      match found with
      | some (_, c) => c.attrs
      | none => []
    let r := read_network_attributes (ctx.compAttrs ty) cur c1.2
    { s with
      buf := r.2
      scene := updCompF cid (fun c => { c with attrs := r.1 }) s.scene }
  else
    let scene1 := if found.isSome then removeCompF cid s.scene else s.scene
    let log1 := if found.isSome then s.log ++ [Evt.removeComp cid] else s.log
    if ctx.registered ty then
      let fresh : Comp := ⟨cid, ty, (ctx.compAttrs ty).map Prod.snd⟩
      let scene2 := addComp nid fresh scene1
      let r := read_network_attributes (ctx.compAttrs ty)
        ((ctx.compAttrs ty).map Prod.snd) c1.2
      { buf := r.2
        scene := updCompF cid (fun c => { c with attrs := r.1 }) scene2
        unused := s.unused
        log := log1 ++ [Evt.createComp cid] }
    else
      { buf := c1.2, scene := scene1, unused := s.unused
        log := log1 ++ [Evt.abortComp cid] }

/-- Node-header part of StateSnapshot::read_node (given the already-read
node id): reuse the live node with that id anywhere in the scene (erasing
it from the unused set) or create a fresh child under the traversal
parent; decode attributes; on a new node snap the SmoothedTransform if one
is attached. -/
def read_node_header (ctx : Ctx) (nid : Nat) (parent : Option Nat)
    (s : RS) : RS :=
  let found := findNodeF nid s.scene
  let isNew := found.isNone
  let scene1 :=
    if isNew then
      createChild parent (.node nid (ctx.nodeAttrs.map Prod.snd) [] [] [])
        s.scene
    else s.scene
  let unused1 :=
    if isNew then s.unused else s.unused.filter (fun j => j ≠ nid)
  let log1 := if isNew then s.log ++ [Evt.createNode nid] else s.log
  let cur :=
    match findNodeF nid scene1 with
    | some n => n.attrs
    | none => []
  let r := read_network_attributes ctx.nodeAttrs cur s.buf
  let scene2 := updNodeF nid (setAttrsN r.1) scene1
  let hasSmoothed : Bool :=
    match findNodeF nid scene2 with
    | some n => n.comps.any (fun c => c.type == ctx.smoothedType)
    | none => false
  let log2 :=
    if isNew && hasSmoothed then log1 ++ [Evt.initNode nid] else log1
  { buf := r.2, scene := scene2, unused := unused1, log := log2 }

/-- User-variable part of read_node: read the count, then the key/value
loop. -/
def read_node_vars (nid : Nat) (s : RS) : RS :=
  let v0 := rdNat s.buf
  iterRead (read_var_step nid) v0.1 { s with buf := v0.2 }

/-- Component part of read_node: read the count, then the component loop. -/
def read_node_comps (ctx : Ctx) (nid : Nat) (s : RS) : RS :=
  let c0 := rdNat s.buf
  iterRead (read_component ctx nid) c0.1 { s with buf := c0.2 }

/-- StateSnapshot::read_node: read the id, then the header (reuse or
create plus attributes), user variables, components, and child nodes
(read_child_nodes: count then recursion).  `fuel` bounds the nesting
depth. -/
def read_node (ctx : Ctx) : Nat → Option Nat → RS → RS
  | 0, _, s => s
  | fuel + 1, parent, s =>
    let i0 := rdNat s.buf
    let nid := i0.1
    let s2 := read_node_header ctx nid parent { s with buf := i0.2 }
    let s3 := read_node_vars nid s2
    let s4 := read_node_comps ctx nid s3
    let n0 := rdNat s4.buf
    iterRead (fun s => read_node ctx fuel (some nid) s) n0.1
      { s4 with buf := n0.2 }

/-- StateSnapshot::read_state: rebuild the unused set from the registry,
read the root count, decode that many nodes under the scene root, then
remove every tracked node still unused.  Returns the final decoder state;
there is no error return. -/
def read_state (ctx : Ctx) (snap : Snapshot) (buf : List Nat)
    (scene : List NTree) : RS :=
  let n0 := rdNat buf
  let s := iterRead (fun s => read_node ctx (buf.length + 1) none s) n0.1
    { buf := n0.2, scene := scene, unused := snap.nodes, log := [] }
  { s with
    scene := s.unused.foldl (fun sc i => removeNodeF i sc) s.scene
    log := s.log ++ s.unused.map Evt.removeNode }

/-
Specification-side definitions: the pure decode image of a freshly
received tree, ghost-log images, id/height/subtree gatherers,
well-formedness of a scene w.r.t. an engine context, and the erasure of
the structural-parent attribute used to state isomorphism up to the
excluded attribute.
-/

/-- Positionwise blend of attribute values: at a "Network Parent Node"
descriptor keep the current value, elsewhere take the original
(transmitted) value. -/
def blendAttrs : List (Nat × Nat) → List Nat → List Nat → List Nat
  | [], _, _ => []
  | _ :: _, [], _ => []
  | _ :: _, _ :: _, [] => []
  | (name, _) :: sr, c :: cr, o :: or =>
    (if name = networkParentNode then c else o) :: blendAttrs sr cr or

/-- The component produced by decoding a fresh encoding of `c`: defaults at
parent-named positions, transmitted values elsewhere. -/
def decComp (ctx : Ctx) (c : Comp) : Comp :=
  ⟨c.id, c.type,
    blendAttrs (ctx.compAttrs c.type) ((ctx.compAttrs c.type).map Prod.snd)
      c.attrs⟩

mutual
/-- The node produced by decoding a fresh encoding of `t` into a scene
that does not contain its ids. -/
def decT (ctx : Ctx) : NTree → NTree
  | .node i a v cs ch =>
    .node i (blendAttrs ctx.nodeAttrs (ctx.nodeAttrs.map Prod.snd) a) v
      (cs.map (decComp ctx)) (decF ctx ch)
/-- Forest version of `decT`. -/
def decF (ctx : Ctx) : List NTree → List NTree
  | [] => []
  | t :: ts => decT ctx t :: decF ctx ts
end

mutual
/-- The ghost log produced by decoding a fresh encoding of `t`. -/
def dlogT : NTree → List Evt
  | .node i _ _ cs ch =>
    Evt.createNode i :: (cs.map (fun c => Evt.createComp c.id) ++ dlogF ch)
/-- Forest version of `dlogT`. -/
def dlogF : List NTree → List Evt
  | [] => []
  | t :: ts => dlogT t ++ dlogF ts
end

mutual
/-- All node ids of a subtree, in pre-order. -/
def idsT : NTree → List Nat
  | .node i _ _ _ ch => i :: idsF ch
/-- All node ids of a forest. -/
def idsF : List NTree → List Nat
  | [] => []
  | t :: ts => idsT t ++ idsF ts
end

mutual
/-- All component ids of a subtree. -/
def compIdsT : NTree → List Nat
  | .node _ _ _ cs ch => cs.map Comp.id ++ compIdsF ch
/-- All component ids of a forest. -/
def compIdsF : List NTree → List Nat
  | [] => []
  | t :: ts => compIdsT t ++ compIdsF ts
end

mutual
/-- Height of a subtree (a leaf node has height 1). -/
def heightT : NTree → Nat
  | .node _ _ _ _ ch => heightF ch + 1
/-- Height of a forest. -/
def heightF : List NTree → Nat
  | [] => 0
  | t :: ts => max (heightT t) (heightF ts)
end

mutual
/-- All subtrees of a tree, the tree itself included. -/
def allSubT : NTree → List NTree
  | .node i a v c ch => .node i a v c ch :: allSubF ch
/-- All subtrees of a forest. -/
def allSubF : List NTree → List NTree
  | [] => []
  | t :: ts => allSubT t ++ allSubF ts
end

/-- Well-formed component w.r.t. the engine context: its type is
registered and its value list matches its descriptor list. -/
def wfC (ctx : Ctx) (c : Comp) : Bool :=
  ctx.registered c.type && c.attrs.length == (ctx.compAttrs c.type).length

/-- Duplicate-freeness of a key list, as a Bool. -/
def nodupN : List Nat → Bool
  | [] => true
  | x :: r => !(r.contains x) && nodupN r

mutual
/-- Well-formed subtree: attribute value lists match the descriptor
lists, user-variable keys are duplicate-free, component types are
registered. -/
def wfT (ctx : Ctx) : NTree → Bool
  | .node _ a v cs ch =>
    a.length == ctx.nodeAttrs.length && nodupN (v.map Prod.fst)
      && cs.all (wfC ctx) && wfF ctx ch
/-- Well-formed forest. -/
def wfF (ctx : Ctx) : List NTree → Bool
  | [] => true
  | t :: ts => wfT ctx t && wfF ctx ts
end

/-- Zero out the values at parent-named descriptor positions (the values
the codec deliberately does not replicate). -/
def scrubAttrs : List (Nat × Nat) → List Nat → List Nat
  | [], _ => []
  | _ :: _, [] => []
  | (name, _) :: sr, v :: vr =>
    (if name = networkParentNode then 0 else v) :: scrubAttrs sr vr

/-- Component with the parent-named attribute values erased. -/
def scrubC (ctx : Ctx) (c : Comp) : Comp :=
  ⟨c.id, c.type, scrubAttrs (ctx.compAttrs c.type) c.attrs⟩

mutual
/-- Subtree with all parent-named attribute values erased. -/
def scrubT (ctx : Ctx) : NTree → NTree
  | .node i a v cs ch =>
    .node i (scrubAttrs ctx.nodeAttrs a) v (cs.map (scrubC ctx))
      (scrubF ctx ch)
/-- Forest version of `scrubT`. -/
def scrubF (ctx : Ctx) : List NTree → List NTree
  | [] => []
  | t :: ts => scrubT ctx t :: scrubF ctx ts
end

/-- The values at parent-named descriptor positions of a value list. -/
def parentSel (schema : List (Nat × Nat)) (vals : List Nat) : List Nat :=
  ((schema.zip vals).filter (fun p => p.1.1 = networkParentNode)).map Prod.snd

/-- Does some root of the forest carry this id? -/
def hasRootId (i : Nat) : List NTree → Bool
  | [] => false
  | t :: ts => t.id == i || hasRootId i ts

mutual
/-- The id of the parent of node `i` strictly inside a subtree. -/
def parentOfT (i : Nat) : NTree → Option Nat
  | .node id _ _ _ ch =>
    if hasRootId i ch then some id else parentOfIn i ch
/-- The id of the parent of node `i` strictly inside a forest. -/
def parentOfIn (i : Nat) : List NTree → Option Nat
  | [] => none
  | t :: ts =>
    match parentOfT i t with
    | some p => some p
    | none => parentOfIn i ts
end

/-- The parent link of node `i` in a scene: `some none` when it sits at
the root level, `some (some p)` when it is a child of node `p`, `none`
when absent. -/
def parentOfF (i : Nat) (scene : List NTree) : Option (Option Nat) :=
  if hasRootId i scene then some none
  else
    match parentOfIn i scene with
    | some p => some (some p)
    | none => none

/-- Traversal-parent validity: a concrete parent id must denote a node of
the scene. -/
def parentOk (parent : Option Nat) (scene : List NTree) : Prop :=
  ∀ p, parent = some p → p ∈ idsF scene

/-
Concrete engine contexts and scenes used by the concrete claim theorems
and witnesses.
-/

/-- Context with no attributes where component type 99 is not registered
on the receiver. -/
def ctxU : Ctx := ⟨[], fun _ => [], fun ty => ty != 99, 77⟩

/-- Trivial context: no attributes, every component type registered. -/
def ctx0 : Ctx := ⟨[], fun _ => [], fun _ => true, 77⟩

/-- Context with a single ordinary node attribute (name 5, default 42). -/
def ctx9 : Ctx := ⟨[(5, 42)], fun _ => [], fun _ => true, 77⟩

/-- Context for round-trip witnesses: the node schema has the structural
parent attribute (name 0 = networkParentNode, default 5) and an ordinary
attribute; component type 3 has one attribute; only type 3 is
registered. -/
def ctxR : Ctx :=
  ⟨[(0, 5), (2, 0)], fun t => if t = 3 then [(4, 0)] else [],
    fun t => t == 3, 77⟩

/-- A two-node tree with a user variable and a component, used as the
round-trip witness scene. -/
def sampleT : NTree :=
  .node 1 [6, 8] [(10, 10)] [⟨5, 3, [100]⟩] [.node 2 [1, 2] [] [] []]

/-
Basic lemmas about the scene operations.
-/

mutual
theorem findNodeT_not_mem {i : Nat} {t : NTree} (h : i ∉ idsT t) :
    findNodeT i t = none := by
  cases t with
  | node id a v c ch =>
    simp only [idsT, List.mem_cons, not_or] at h
    have hne : ¬ id = i := fun hh => h.1 hh.symm
    simp only [findNodeT, if_neg hne]
    exact findNodeF_not_mem h.2
theorem findNodeF_not_mem {i : Nat} {ts : List NTree} (h : i ∉ idsF ts) :
    findNodeF i ts = none := by
  cases ts with
  | nil => rfl
  | cons t ts =>
    simp only [idsF, List.mem_append, not_or] at h
    simp only [findNodeF, findNodeT_not_mem h.1]
    exact findNodeF_not_mem h.2
end

mutual
theorem updNodeT_not_mem {i : Nat} {f : NTree → NTree} {t : NTree}
    (h : i ∉ idsT t) : updNodeT i f t = t := by
  cases t with
  | node id a v c ch =>
    simp only [idsT, List.mem_cons, not_or] at h
    have hne : ¬ id = i := fun hh => h.1 hh.symm
    simp only [updNodeT, if_neg hne]
    rw [updNodeF_not_mem h.2]
theorem updNodeF_not_mem {i : Nat} {f : NTree → NTree} {ts : List NTree}
    (h : i ∉ idsF ts) : updNodeF i f ts = ts := by
  cases ts with
  | nil => rfl
  | cons t ts =>
    simp only [idsF, List.mem_append, not_or] at h
    simp only [updNodeF]
    rw [updNodeT_not_mem h.1, updNodeF_not_mem h.2]
end

theorem updNodeF_append (i : Nat) (f : NTree → NTree) (ts us : List NTree) :
    updNodeF i f (ts ++ us) = updNodeF i f ts ++ updNodeF i f us := by
  induction ts with
  | nil => rfl
  | cons t ts ih =>
    simp only [List.cons_append, updNodeF, List.append_eq] at ih ⊢
    rw [ih]

theorem updNodeT_root {i : Nat} {f : NTree → NTree} {t : NTree}
    (h : t.id = i) : updNodeT i f t = f t := by
  cases t with
  | node id a v c ch =>
    simp only [NTree.id] at h
    simp only [updNodeT, if_pos h]

theorem updNodeT_mk {i : Nat} {f : NTree → NTree} {a : List Nat}
    {v : List (Nat × Nat)} {c : List Comp} {ch : List NTree} :
    updNodeT i f (.node i a v c ch) = f (.node i a v c ch) := by
  simp [updNodeT]

theorem findNodeT_mk {i : Nat} {a : List Nat} {v : List (Nat × Nat)}
    {c : List Comp} {ch : List NTree} :
    findNodeT i (.node i a v c ch) = some (.node i a v c ch) := by
  simp [findNodeT]

theorem find_comp_list_not_mem {ci : Nat} {cs : List Comp}
    (h : ci ∉ cs.map Comp.id) : cs.find? (fun c => c.id == ci) = none := by
  refine List.find?_eq_none.mpr (fun c hc => ?_)
  simp only [beq_iff_eq]
  exact fun he => h (he ▸ List.mem_map_of_mem Comp.id hc)

mutual
theorem findCompT_not_mem {ci : Nat} {t : NTree} (h : ci ∉ compIdsT t) :
    findCompT ci t = none := by
  cases t with
  | node id a v cs ch =>
    simp only [compIdsT, List.mem_append, not_or] at h
    simp only [findCompT, find_comp_list_not_mem h.1]
    exact findCompF_not_mem h.2
theorem findCompF_not_mem {ci : Nat} {ts : List NTree} (h : ci ∉ compIdsF ts) :
    findCompF ci ts = none := by
  cases ts with
  | nil => rfl
  | cons t ts =>
    simp only [compIdsF, List.mem_append, not_or] at h
    simp only [findCompF, findCompT_not_mem h.1]
    exact findCompF_not_mem h.2
end

theorem upd_comp_list_not_mem {ci : Nat} {f : Comp → Comp} {cs : List Comp}
    (h : ci ∉ cs.map Comp.id) :
    cs.map (fun c => if c.id = ci then f c else c) = cs := by
  induction cs with
  | nil => rfl
  | cons c cs ih =>
    simp only [List.map_cons, List.mem_cons, not_or] at h ⊢
    rw [if_neg (fun hh => h.1 hh.symm), ih h.2]

mutual
theorem updCompT_not_mem {ci : Nat} {f : Comp → Comp} {t : NTree}
    (h : ci ∉ compIdsT t) : updCompT ci f t = t := by
  cases t with
  | node id a v cs ch =>
    simp only [compIdsT, List.mem_append, not_or] at h
    simp only [updCompT]
    rw [upd_comp_list_not_mem h.1, updCompF_not_mem h.2]
theorem updCompF_not_mem {ci : Nat} {f : Comp → Comp} {ts : List NTree}
    (h : ci ∉ compIdsF ts) : updCompF ci f ts = ts := by
  cases ts with
  | nil => rfl
  | cons t ts =>
    simp only [compIdsF, List.mem_append, not_or] at h
    simp only [updCompF]
    rw [updCompT_not_mem h.1, updCompF_not_mem h.2]
end

theorem idsF_append (ts us : List NTree) :
    idsF (ts ++ us) = idsF ts ++ idsF us := by
  induction ts with
  | nil => rfl
  | cons t ts ih =>
    simp only [List.cons_append, idsF, List.append_eq] at ih ⊢
    rw [ih, List.append_assoc]

theorem idsF_singleton (d : NTree) : idsF [d] = idsT d := by
  simp [idsF]

theorem compIdsF_append (ts us : List NTree) :
    compIdsF (ts ++ us) = compIdsF ts ++ compIdsF us := by
  induction ts with
  | nil => rfl
  | cons t ts ih =>
    simp only [List.cons_append, compIdsF, List.append_eq] at ih ⊢
    rw [ih, List.append_assoc]

theorem compIdsF_singleton (d : NTree) : compIdsF [d] = compIdsT d := by
  simp [compIdsF]

theorem findNodeF_skip {j : Nat} {ts : List NTree} (us : List NTree)
    (h : j ∉ idsF ts) : findNodeF j (ts ++ us) = findNodeF j us := by
  induction ts with
  | nil => rfl
  | cons t ts ih =>
    simp only [idsF, List.mem_append, not_or] at h
    simp only [List.cons_append, findNodeF, findNodeT_not_mem h.1]
    exact ih h.2

theorem findNodeF_singleton (j : Nat) (d : NTree) :
    findNodeF j [d] = findNodeT j d := by
  cases hd : findNodeT j d <;> simp [findNodeF, hd]

theorem findCompF_skip {ci : Nat} {ts : List NTree} (us : List NTree)
    (h : ci ∉ compIdsF ts) : findCompF ci (ts ++ us) = findCompF ci us := by
  induction ts with
  | nil => rfl
  | cons t ts ih =>
    simp only [compIdsF, List.mem_append, not_or] at h
    simp only [List.cons_append, findCompF, findCompT_not_mem h.1]
    exact ih h.2

theorem findCompF_singleton (ci : Nat) (d : NTree) :
    findCompF ci [d] = findCompT ci d := by
  cases hd : findCompT ci d <;> simp [findCompF, hd]

theorem updCompF_append (ci : Nat) (f : Comp → Comp) (ts us : List NTree) :
    updCompF ci f (ts ++ us) = updCompF ci f ts ++ updCompF ci f us := by
  induction ts with
  | nil => rfl
  | cons t ts ih =>
    simp only [List.cons_append, updCompF, List.append_eq] at ih ⊢
    rw [ih]

/-
Fusion lemmas: operations targeting ids that live only inside a freshly
inserted subtree commute with the insertion.
-/

mutual
theorem updNodeT_fuse {j : Nat} {f : NTree → NTree} {p : Nat} {d : NTree}
    {t : NTree} (h : j ∉ idsT t) :
    updNodeT j f (updNodeT p (appendChildN d) t)
      = updNodeT p (appendChildN (updNodeT j f d)) t := by
  cases t with
  | node id a v c ch =>
    simp only [idsT, List.mem_cons, not_or] at h
    have hne : ¬ id = j := fun hh => h.1 hh.symm
    by_cases hp : id = p
    · simp only [updNodeT, if_pos hp, appendChildN, if_neg hne]
      rw [updNodeF_append, updNodeF_not_mem h.2]
      simp [updNodeF]
    · simp only [updNodeT, if_neg hp, if_neg hne]
      rw [updNodeF_fuse h.2]
theorem updNodeF_fuse {j : Nat} {f : NTree → NTree} {p : Nat} {d : NTree}
    {ts : List NTree} (h : j ∉ idsF ts) :
    updNodeF j f (updNodeF p (appendChildN d) ts)
      = updNodeF p (appendChildN (updNodeT j f d)) ts := by
  cases ts with
  | nil => rfl
  | cons t ts =>
    simp only [idsF, List.mem_append, not_or] at h
    simp only [updNodeF]
    rw [updNodeT_fuse h.1, updNodeF_fuse h.2]
end

theorem updNodeF_createChild {j : Nat} {f : NTree → NTree}
    {parent : Option Nat} {d : NTree} {σ : List NTree} (h : j ∉ idsF σ) :
    updNodeF j f (createChild parent d σ)
      = createChild parent (updNodeT j f d) σ := by
  cases parent with
  | none =>
    simp only [createChild]
    rw [updNodeF_append, updNodeF_not_mem h]
    simp [updNodeF]
  | some p =>
    simp only [createChild]
    exact updNodeF_fuse h

mutual
theorem updCompT_fuse {ci : Nat} {f : Comp → Comp} {p : Nat} {d : NTree}
    {t : NTree} (h : ci ∉ compIdsT t) :
    updCompT ci f (updNodeT p (appendChildN d) t)
      = updNodeT p (appendChildN (updCompT ci f d)) t := by
  cases t with
  | node id a v cs ch =>
    simp only [compIdsT, List.mem_append, not_or] at h
    by_cases hp : id = p
    · simp only [updNodeT, if_pos hp, appendChildN, updCompT]
      rw [upd_comp_list_not_mem h.1, updCompF_append, updCompF_not_mem h.2]
      simp [updCompF]
    · simp only [updNodeT, if_neg hp, updCompT]
      rw [upd_comp_list_not_mem h.1, updCompF_fuse h.2]
theorem updCompF_fuse {ci : Nat} {f : Comp → Comp} {p : Nat} {d : NTree}
    {ts : List NTree} (h : ci ∉ compIdsF ts) :
    updCompF ci f (updNodeF p (appendChildN d) ts)
      = updNodeF p (appendChildN (updCompT ci f d)) ts := by
  cases ts with
  | nil => rfl
  | cons t ts =>
    simp only [compIdsF, List.mem_append, not_or] at h
    simp only [updCompF, updNodeF]
    rw [updCompT_fuse h.1, updCompF_fuse h.2]
end

theorem updCompF_createChild {ci : Nat} {f : Comp → Comp}
    {parent : Option Nat} {d : NTree} {σ : List NTree}
    (h : ci ∉ compIdsF σ) :
    updCompF ci f (createChild parent d σ)
      = createChild parent (updCompT ci f d) σ := by
  cases parent with
  | none =>
    simp only [createChild]
    rw [updCompF_append, updCompF_not_mem h]
    simp [updCompF]
  | some p =>
    simp only [createChild]
    exact updCompF_fuse h

mutual
theorem findNodeT_fuse {j p : Nat} {d t : NTree}
    (h : j ∉ idsT t) (hp : p ∈ idsT t) :
    findNodeT j (updNodeT p (appendChildN d) t) = findNodeT j d := by
  cases t with
  | node id a v c ch =>
    simp only [idsT, List.mem_cons, not_or] at h
    have hne : ¬ id = j := fun hh => h.1 hh.symm
    by_cases hid : id = p
    · simp only [updNodeT, if_pos hid, appendChildN, findNodeT, if_neg hne]
      rw [findNodeF_skip [d] h.2, findNodeF_singleton]
    · have hpch : p ∈ idsF ch := by
        rcases List.mem_cons.mp hp with hh | hh
        · exact absurd hh.symm hid
        · exact hh
      simp only [updNodeT, if_neg hid, findNodeT, if_neg hne]
      exact findNodeF_fuse h.2 hpch
theorem findNodeF_fuse {j p : Nat} {d : NTree} {ts : List NTree}
    (h : j ∉ idsF ts) (hp : p ∈ idsF ts) :
    findNodeF j (updNodeF p (appendChildN d) ts) = findNodeT j d := by
  cases ts with
  | nil => simp [idsF] at hp
  | cons t ts =>
    simp only [idsF, List.mem_append, not_or] at h
    by_cases hpt : p ∈ idsT t
    · simp only [updNodeF, findNodeF]
      rw [findNodeT_fuse h.1 hpt]
      cases hd : findNodeT j d with
      | some r => rfl
      | none =>
        simp only []
        by_cases hpts : p ∈ idsF ts
        · rw [findNodeF_fuse h.2 hpts, hd]
        · rw [updNodeF_not_mem hpts, findNodeF_not_mem h.2]
    · have hpts : p ∈ idsF ts := by
        rcases List.mem_append.mp hp with hh | hh
        · exact absurd hh hpt
        · exact hh
      simp only [updNodeF, findNodeF]
      rw [updNodeT_not_mem hpt, findNodeT_not_mem h.1]
      exact findNodeF_fuse h.2 hpts
end

theorem findNodeF_createChild {j : Nat} {parent : Option Nat} {d : NTree}
    {σ : List NTree} (h : j ∉ idsF σ) (hp : parentOk parent σ) :
    findNodeF j (createChild parent d σ) = findNodeT j d := by
  cases parent with
  | none =>
    simp only [createChild]
    rw [findNodeF_skip [d] h, findNodeF_singleton]
  | some p =>
    simp only [createChild]
    exact findNodeF_fuse h (hp p rfl)

mutual
theorem findCompT_fuse {ci p : Nat} {d t : NTree}
    (h : ci ∉ compIdsT t) (hp : p ∈ idsT t) :
    findCompT ci (updNodeT p (appendChildN d) t) = findCompT ci d := by
  cases t with
  | node id a v cs ch =>
    simp only [compIdsT, List.mem_append, not_or] at h
    by_cases hid : id = p
    · simp only [updNodeT, if_pos hid, appendChildN, findCompT,
        find_comp_list_not_mem h.1]
      rw [findCompF_skip [d] h.2, findCompF_singleton]
    · have hpch : p ∈ idsF ch := by
        rcases List.mem_cons.mp hp with hh | hh
        · exact absurd hh.symm hid
        · exact hh
      simp only [updNodeT, if_neg hid, findCompT, find_comp_list_not_mem h.1]
      exact findCompF_fuse h.2 hpch
theorem findCompF_fuse {ci p : Nat} {d : NTree} {ts : List NTree}
    (h : ci ∉ compIdsF ts) (hp : p ∈ idsF ts) :
    findCompF ci (updNodeF p (appendChildN d) ts) = findCompT ci d := by
  cases ts with
  | nil => simp [idsF] at hp
  | cons t ts =>
    simp only [compIdsF, List.mem_append, not_or] at h
    by_cases hpt : p ∈ idsT t
    · simp only [updNodeF, findCompF]
      rw [findCompT_fuse h.1 hpt]
      cases hd : findCompT ci d with
      | some r => rfl
      | none =>
        simp only []
        by_cases hpts : p ∈ idsF ts
        · rw [findCompF_fuse h.2 hpts, hd]
        · rw [updNodeF_not_mem hpts, findCompF_not_mem h.2]
    · have hpts : p ∈ idsF ts := by
        rcases List.mem_append.mp hp with hh | hh
        · exact absurd hh hpt
        · exact hh
      simp only [updNodeF, findCompF]
      rw [updNodeT_not_mem hpt, findCompT_not_mem h.1]
      exact findCompF_fuse h.2 hpts
end

theorem findCompF_createChild {ci : Nat} {parent : Option Nat} {d : NTree}
    {σ : List NTree} (h : ci ∉ compIdsF σ) (hp : parentOk parent σ) :
    findCompF ci (createChild parent d σ) = findCompT ci d := by
  cases parent with
  | none =>
    simp only [createChild]
    rw [findCompF_skip [d] h, findCompF_singleton]
  | some p =>
    simp only [createChild]
    exact findCompF_fuse h (hp p rfl)

mutual
theorem idsT_fuse_sub {j p : Nat} {d t : NTree}
    (h : j ∈ idsT (updNodeT p (appendChildN d) t)) :
    j ∈ idsT t ∨ j ∈ idsT d := by
  cases t with
  | node id a v c ch =>
    by_cases hid : id = p
    · simp only [updNodeT, if_pos hid, appendChildN, idsT, idsF_append,
        idsF_singleton, List.mem_cons, List.mem_append] at h
      rcases h with h | h | h
      · exact Or.inl (by simp [idsT, h])
      · exact Or.inl (by simp [idsT, List.mem_cons, h])
      · exact Or.inr h
    · simp only [updNodeT, if_neg hid, idsT, List.mem_cons] at h
      rcases h with h | h
      · exact Or.inl (by simp [idsT, h])
      · rcases idsF_fuse_sub h with h | h
        · exact Or.inl (by simp [idsT, List.mem_cons, h])
        · exact Or.inr h
theorem idsF_fuse_sub {j p : Nat} {d : NTree} {ts : List NTree}
    (h : j ∈ idsF (updNodeF p (appendChildN d) ts)) :
    j ∈ idsF ts ∨ j ∈ idsT d := by
  cases ts with
  | nil => exact Or.inl h
  | cons t ts =>
    simp only [updNodeF, idsF, List.mem_append] at h
    rcases h with h | h
    · rcases idsT_fuse_sub h with h | h
      · exact Or.inl (by simp [idsF, List.mem_append, h])
      · exact Or.inr h
    · rcases idsF_fuse_sub h with h | h
      · exact Or.inl (by simp [idsF, List.mem_append, h])
      · exact Or.inr h
end

mutual
theorem idsT_fuse_mem {j p : Nat} {d t : NTree} (h : j ∈ idsT t) :
    j ∈ idsT (updNodeT p (appendChildN d) t) := by
  cases t with
  | node id a v c ch =>
    simp only [idsT, List.mem_cons] at h
    by_cases hid : id = p
    · simp only [updNodeT, if_pos hid, appendChildN, idsT, idsF_append,
        List.mem_cons, List.mem_append]
      rcases h with h | h
      · exact Or.inl h
      · exact Or.inr (Or.inl h)
    · simp only [updNodeT, if_neg hid, idsT, List.mem_cons]
      rcases h with h | h
      · exact Or.inl h
      · exact Or.inr (idsF_fuse_mem h)
theorem idsF_fuse_mem {j p : Nat} {d : NTree} {ts : List NTree}
    (h : j ∈ idsF ts) :
    j ∈ idsF (updNodeF p (appendChildN d) ts) := by
  cases ts with
  | nil => exact h
  | cons t ts =>
    simp only [idsF, List.mem_append] at h
    simp only [updNodeF, idsF, List.mem_append]
    rcases h with h | h
    · exact Or.inl (idsT_fuse_mem h)
    · exact Or.inr (idsF_fuse_mem h)
end

mutual
theorem idsT_fuse_memd {j p : Nat} {d t : NTree} (hp : p ∈ idsT t)
    (h : j ∈ idsT d) : j ∈ idsT (updNodeT p (appendChildN d) t) := by
  cases t with
  | node id a v c ch =>
    by_cases hid : id = p
    · simp only [updNodeT, if_pos hid, appendChildN, idsT, idsF_append,
        idsF_singleton, List.mem_cons, List.mem_append]
      exact Or.inr (Or.inr h)
    · have hpch : p ∈ idsF ch := by
        rcases List.mem_cons.mp hp with hh | hh
        · exact absurd hh.symm hid
        · exact hh
      simp only [updNodeT, if_neg hid, idsT, List.mem_cons]
      exact Or.inr (idsF_fuse_memd hpch h)
theorem idsF_fuse_memd {j p : Nat} {d : NTree} {ts : List NTree}
    (hp : p ∈ idsF ts) (h : j ∈ idsT d) :
    j ∈ idsF (updNodeF p (appendChildN d) ts) := by
  cases ts with
  | nil => simp [idsF] at hp
  | cons t ts =>
    simp only [updNodeF, idsF, List.mem_append]
    by_cases hpt : p ∈ idsT t
    · exact Or.inl (idsT_fuse_memd hpt h)
    · have hpts : p ∈ idsF ts := by
        rcases List.mem_append.mp hp with hh | hh
        · exact absurd hh hpt
        · exact hh
      exact Or.inr (idsF_fuse_memd hpts h)
end

mutual
theorem compIdsT_fuse_sub {j p : Nat} {d t : NTree}
    (h : j ∈ compIdsT (updNodeT p (appendChildN d) t)) :
    j ∈ compIdsT t ∨ j ∈ compIdsT d := by
  cases t with
  | node id a v c ch =>
    by_cases hid : id = p
    · simp only [updNodeT, if_pos hid, appendChildN, compIdsT,
        compIdsF_append, compIdsF_singleton, List.mem_append] at h
      rcases h with h | h | h
      · exact Or.inl (by simp [compIdsT, List.mem_append, h])
      · exact Or.inl (by simp [compIdsT, List.mem_append, h])
      · exact Or.inr h
    · simp only [updNodeT, if_neg hid, compIdsT, List.mem_append] at h
      rcases h with h | h
      · exact Or.inl (by simp [compIdsT, List.mem_append, h])
      · rcases compIdsF_fuse_sub h with h | h
        · exact Or.inl (by simp [compIdsT, List.mem_append, h])
        · exact Or.inr h
theorem compIdsF_fuse_sub {j p : Nat} {d : NTree} {ts : List NTree}
    (h : j ∈ compIdsF (updNodeF p (appendChildN d) ts)) :
    j ∈ compIdsF ts ∨ j ∈ compIdsT d := by
  cases ts with
  | nil => exact Or.inl h
  | cons t ts =>
    simp only [updNodeF, compIdsF, List.mem_append] at h
    rcases h with h | h
    · rcases compIdsT_fuse_sub h with h | h
      · exact Or.inl (by simp [compIdsF, List.mem_append, h])
      · exact Or.inr h
    · rcases compIdsF_fuse_sub h with h | h
      · exact Or.inl (by simp [compIdsF, List.mem_append, h])
      · exact Or.inr h
end

theorem ids_createChild_sub {j : Nat} {parent : Option Nat} {d : NTree}
    {σ : List NTree} (h : j ∈ idsF (createChild parent d σ)) :
    j ∈ idsF σ ∨ j ∈ idsT d := by
  cases parent with
  | none =>
    simp only [createChild, idsF_append, idsF_singleton, List.mem_append] at h
    exact h
  | some p => exact idsF_fuse_sub h

theorem ids_createChild_mem {j : Nat} {parent : Option Nat} {d : NTree}
    {σ : List NTree} (h : j ∈ idsF σ) :
    j ∈ idsF (createChild parent d σ) := by
  cases parent with
  | none =>
    simp only [createChild, idsF_append, List.mem_append]
    exact Or.inl h
  | some p => exact idsF_fuse_mem h

theorem ids_createChild_memd {j : Nat} {parent : Option Nat} {d : NTree}
    {σ : List NTree} (hp : parentOk parent σ) (h : j ∈ idsT d) :
    j ∈ idsF (createChild parent d σ) := by
  cases parent with
  | none =>
    simp only [createChild, idsF_append, idsF_singleton, List.mem_append]
    exact Or.inr h
  | some p => exact idsF_fuse_memd (hp p rfl) h

theorem compIds_createChild_sub {j : Nat} {parent : Option Nat} {d : NTree}
    {σ : List NTree} (h : j ∈ compIdsF (createChild parent d σ)) :
    j ∈ compIdsF σ ∨ j ∈ compIdsT d := by
  cases parent with
  | none =>
    simp only [createChild, compIdsF_append, compIdsF_singleton,
      List.mem_append] at h
    exact h
  | some p => exact compIdsF_fuse_sub h

/-
Attribute codec lemmas.
-/

theorem write_attrs_nil_blend {schema : List (Nat × Nat)}
    {cur orig : List Nat} (hw : write_network_attributes schema orig = [])
    (hc : cur.length = schema.length) (ho : orig.length = schema.length) :
    blendAttrs schema cur orig = cur := by
  induction schema generalizing cur orig with
  | nil =>
    cases cur with
    | nil => rfl
    | cons c cr => simp at hc
  | cons sd sr ih =>
    obtain ⟨name, dv⟩ := sd
    cases cur with
    | nil => simp at hc
    | cons c cr =>
      cases orig with
      | nil => simp at ho
      | cons o orr =>
        simp only [List.length_cons, Nat.add_right_cancel_iff] at hc ho
        by_cases hn : name = networkParentNode
        · simp only [write_network_attributes, if_pos hn] at hw
          simp only [blendAttrs, if_pos hn]
          rw [ih hw hc ho]
        · simp only [write_network_attributes, if_neg hn] at hw
          exact absurd hw (List.cons_ne_nil o _)

theorem read_write_attrs {schema : List (Nat × Nat)} {cur orig : List Nat}
    (rest : List Nat) (hc : cur.length = schema.length)
    (ho : orig.length = schema.length) :
    read_network_attributes schema cur
        (write_network_attributes schema orig ++ rest)
      = (blendAttrs schema cur orig, rest) := by
  induction schema generalizing cur orig with
  | nil =>
    cases cur with
    | nil =>
      cases orig with
      | nil => rfl
      | cons o orr => simp at ho
    | cons c cr => simp at hc
  | cons sd sr ih =>
    obtain ⟨name, dv⟩ := sd
    cases cur with
    | nil => simp at hc
    | cons c cr =>
      cases orig with
      | nil => simp at ho
      | cons o orr =>
        simp only [List.length_cons, Nat.add_right_cancel_iff] at hc ho
        by_cases hn : name = networkParentNode
        · simp only [write_network_attributes, if_pos hn]
          by_cases hb : write_network_attributes sr orr ++ rest = []
          · rcases List.append_eq_nil.mp hb with ⟨hw, hr⟩
            subst hr
            rw [hw]
            simp only [List.append_nil, read_network_attributes,
              List.isEmpty_nil, if_true, blendAttrs, if_pos hn]
            rw [write_attrs_nil_blend hw hc ho]
          · have hbe : (write_network_attributes sr orr ++ rest).isEmpty = false := by
              cases hx : write_network_attributes sr orr ++ rest with
              | nil => exact absurd hx hb
              | cons y ys => rfl
            simp only [read_network_attributes, hbe, Bool.false_eq_true,
              if_false, if_pos hn, blendAttrs]
            rw [ih hc ho]
        · simp only [write_network_attributes, if_neg hn, List.cons_append]
          simp only [read_network_attributes, List.isEmpty_cons,
            Bool.false_eq_true, if_false, if_neg hn, rdNat]
          simp only [blendAttrs, if_neg hn]
          rw [ih hc ho]

theorem blendAttrs_length {schema : List (Nat × Nat)} {cur orig : List Nat}
    (hc : cur.length = schema.length) (ho : orig.length = schema.length) :
    (blendAttrs schema cur orig).length = schema.length := by
  induction schema generalizing cur orig with
  | nil => rfl
  | cons sd sr ih =>
    obtain ⟨name, dv⟩ := sd
    cases cur with
    | nil => simp at hc
    | cons c cr =>
      cases orig with
      | nil => simp at ho
      | cons o orr =>
        simp only [List.length_cons, Nat.add_right_cancel_iff] at hc ho
        simp only [blendAttrs, List.length_cons, Nat.add_right_cancel_iff]
        exact ih hc ho

theorem blendAttrs_idem {schema : List (Nat × Nat)} {cur orig : List Nat}
    (hc : cur.length = schema.length) (ho : orig.length = schema.length) :
    blendAttrs schema (blendAttrs schema cur orig) orig
      = blendAttrs schema cur orig := by
  induction schema generalizing cur orig with
  | nil => rfl
  | cons sd sr ih =>
    obtain ⟨name, dv⟩ := sd
    cases cur with
    | nil => simp at hc
    | cons c cr =>
      cases orig with
      | nil => simp at ho
      | cons o orr =>
        simp only [List.length_cons, Nat.add_right_cancel_iff] at hc ho
        by_cases hn : name = networkParentNode
        · simp only [blendAttrs, if_pos hn]
          rw [ih hc ho]
        · simp only [blendAttrs, if_neg hn]
          rw [ih hc ho]

theorem scrub_blendAttrs {schema : List (Nat × Nat)} {cur orig : List Nat}
    (hc : cur.length = schema.length) (ho : orig.length = schema.length) :
    scrubAttrs schema (blendAttrs schema cur orig)
      = scrubAttrs schema orig := by
  induction schema generalizing cur orig with
  | nil => rfl
  | cons sd sr ih =>
    obtain ⟨name, dv⟩ := sd
    cases cur with
    | nil => simp at hc
    | cons c cr =>
      cases orig with
      | nil => simp at ho
      | cons o orr =>
        simp only [List.length_cons, Nat.add_right_cancel_iff] at hc ho
        by_cases hn : name = networkParentNode
        · simp only [blendAttrs, scrubAttrs, if_pos hn]
          rw [ih hc ho]
        · simp only [blendAttrs, scrubAttrs, if_neg hn]
          rw [ih hc ho]

/-
User-variable lemmas.
-/

theorem setVarL_fresh {k x : Nat} {w : List (Nat × Nat)}
    (h : k ∉ w.map Prod.fst) : setVarL k x w = w ++ [(k, x)] := by
  induction w with
  | nil => rfl
  | cons q w ih =>
    obtain ⟨kq, vq⟩ := q
    simp only [List.map_cons, List.mem_cons, not_or] at h
    have hkq : ¬ kq = k := fun hh => h.1 hh.symm
    simp only [setVarL, if_neg hkq, List.cons_append]
    rw [ih h.2]

theorem setVarL_mem {k x : Nat} {w : List (Nat × Nat)}
    (hnd : (w.map Prod.fst).Nodup) (h : (k, x) ∈ w) : setVarL k x w = w := by
  induction w with
  | nil => simp at h
  | cons q w ih =>
    obtain ⟨kq, vq⟩ := q
    simp only [List.map_cons, List.nodup_cons] at hnd
    rcases List.mem_cons.mp h with hh | hh
    · have hk : k = kq := congrArg Prod.fst hh
      have hv : x = vq := congrArg Prod.snd hh
      simp only [setVarL, if_pos hk.symm]
      rw [hk, hv]
    · have hkq : ¬ kq = k := by
        intro he
        exact hnd.1 (he ▸ List.mem_map_of_mem Prod.fst hh)
      simp only [setVarL, if_neg hkq]
      rw [ih hnd.2 hh]

theorem contains_false_iff {x : Nat} {r : List Nat} :
    r.contains x = false ↔ x ∉ r := by
  have h : r.contains x = true ↔ x ∈ r := List.elem_iff
  constructor
  · intro hc hm
    rw [h.mpr hm] at hc
    cases hc
  · intro hm
    cases hcx : r.contains x with
    | false => rfl
    | true => exact absurd (h.mp hcx) hm

theorem nodupN_iff {l : List Nat} : nodupN l = true ↔ l.Nodup := by
  induction l with
  | nil => simp [nodupN]
  | cons x r ih =>
    simp only [nodupN, Bool.and_eq_true, Bool.not_eq_true', List.nodup_cons]
    rw [ih, contains_false_iff]

/-
Preservation facts about the pure decode image, heights, and
well-formedness extraction.
-/

theorem findNodeT_root {i : Nat} {t : NTree} (h : t.id = i) :
    findNodeT i t = some t := by
  cases t with
  | node id a v c ch =>
    simp only [NTree.id] at h
    simp only [findNodeT, if_pos h]

theorem decComp_id (ctx : Ctx) (c : Comp) : (decComp ctx c).id = c.id := rfl

theorem decComp_type (ctx : Ctx) (c : Comp) :
    (decComp ctx c).type = c.type := rfl

theorem decT_id (ctx : Ctx) (t : NTree) : (decT ctx t).id = t.id := by
  cases t with
  | node i a v cs ch => rfl

mutual
theorem idsT_decT (ctx : Ctx) (t : NTree) : idsT (decT ctx t) = idsT t := by
  cases t with
  | node i a v cs ch =>
    simp only [decT, idsT]
    rw [idsF_decF ctx ch]
theorem idsF_decF (ctx : Ctx) (ts : List NTree) :
    idsF (decF ctx ts) = idsF ts := by
  cases ts with
  | nil => rfl
  | cons t ts =>
    simp only [decF, idsF]
    rw [idsT_decT ctx t, idsF_decF ctx ts]
end

mutual
theorem compIdsT_decT (ctx : Ctx) (t : NTree) :
    compIdsT (decT ctx t) = compIdsT t := by
  cases t with
  | node i a v cs ch =>
    simp only [decT, compIdsT, List.map_map]
    rw [compIdsF_decF ctx ch]
    rfl
theorem compIdsF_decF (ctx : Ctx) (ts : List NTree) :
    compIdsF (decF ctx ts) = compIdsF ts := by
  cases ts with
  | nil => rfl
  | cons t ts =>
    simp only [decF, compIdsF]
    rw [compIdsT_decT ctx t, compIdsF_decF ctx ts]
end

mutual
theorem heightT_le_write (ctx : Ctx) (t : NTree) :
    heightT t ≤ (write_node ctx t).length := by
  cases t with
  | node i a v cs ch =>
    simp only [heightT, write_node, List.length_cons, List.length_append]
    have h := heightF_le_write ctx ch
    omega
theorem heightF_le_write (ctx : Ctx) (ts : List NTree) :
    heightF ts ≤ (write_nodesF ctx ts).length := by
  cases ts with
  | nil => simp [heightF, write_nodesF]
  | cons t ts =>
    simp only [heightF, write_nodesF, List.length_append]
    have h1 := heightT_le_write ctx t
    have h2 := heightF_le_write ctx ts
    omega
end

theorem wfC_parts {ctx : Ctx} {c : Comp} (h : wfC ctx c = true) :
    ctx.registered c.type = true
      ∧ c.attrs.length = (ctx.compAttrs c.type).length := by
  simp only [wfC, Bool.and_eq_true, beq_iff_eq] at h
  exact h

theorem wfT_parts {ctx : Ctx} {i : Nat} {a : List Nat}
    {v : List (Nat × Nat)} {cs : List Comp} {ch : List NTree}
    (h : wfT ctx (.node i a v cs ch) = true) :
    a.length = ctx.nodeAttrs.length ∧ (v.map Prod.fst).Nodup
      ∧ (∀ c ∈ cs, wfC ctx c = true) ∧ wfF ctx ch = true := by
  simp only [wfT, Bool.and_eq_true, beq_iff_eq, List.all_eq_true] at h
  obtain ⟨⟨⟨h1, h2⟩, h3⟩, h4⟩ := h
  exact ⟨h1, nodupN_iff.mp h2, fun c hc => h3 c hc, h4⟩

theorem wfF_parts {ctx : Ctx} {t : NTree} {ts : List NTree}
    (h : wfF ctx (t :: ts) = true) :
    wfT ctx t = true ∧ wfF ctx ts = true := by
  simp only [wfF, Bool.and_eq_true] at h
  exact h

/-
Single-step characterizations of read_component on its three paths.
-/

theorem read_component_fresh {ctx : Ctx} {i cid ty : Nat} {AB : List Nat}
    {σ : List NTree} {unused : List Nat} {log : List Evt}
    (hfound : findCompF cid σ = none) (hreg : ctx.registered ty = true) :
    read_component ctx i
        { buf := cid :: ty :: AB, scene := σ, unused := unused, log := log }
    = { buf := (read_network_attributes (ctx.compAttrs ty)
          ((ctx.compAttrs ty).map Prod.snd) AB).2,
        scene := updCompF cid
          (fun c => { c with attrs := (read_network_attributes
            (ctx.compAttrs ty) ((ctx.compAttrs ty).map Prod.snd) AB).1 })
          (addComp i ⟨cid, ty, (ctx.compAttrs ty).map Prod.snd⟩ σ),
        unused := unused, log := log ++ [Evt.createComp cid] } := by
  simp [read_component, rdNat, hfound, hreg]

theorem read_component_match {ctx : Ctx} {i cid ty : Nat} {AB : List Nat}
    {σ : List NTree} {unused : List Nat} {log : List Evt} {owner : Nat}
    {c : Comp} (hfound : findCompF cid σ = some (owner, c))
    (hty : c.type = ty) (hown : owner = i) :
    read_component ctx i
        { buf := cid :: ty :: AB, scene := σ, unused := unused, log := log }
    = { buf := (read_network_attributes (ctx.compAttrs ty) c.attrs AB).2,
        scene := updCompF cid
          (fun d => { d with attrs := (read_network_attributes
            (ctx.compAttrs ty) c.attrs AB).1 }) σ,
        unused := unused, log := log } := by
  simp [read_component, rdNat, hfound, hty, hown]

theorem read_component_mismatch {ctx : Ctx} {i cid ty : Nat} {AB : List Nat}
    {σ : List NTree} {unused : List Nat} {log : List Evt} {owner : Nat}
    {c : Comp} (hfound : findCompF cid σ = some (owner, c))
    (hmis : ¬ (c.type = ty ∧ owner = i)) (hreg : ctx.registered ty = true) :
    read_component ctx i
        { buf := cid :: ty :: AB, scene := σ, unused := unused, log := log }
    = { buf := (read_network_attributes (ctx.compAttrs ty)
          ((ctx.compAttrs ty).map Prod.snd) AB).2,
        scene := updCompF cid
          (fun d => { d with attrs := (read_network_attributes
            (ctx.compAttrs ty) ((ctx.compAttrs ty).map Prod.snd) AB).1 })
          (addComp i ⟨cid, ty, (ctx.compAttrs ty).map Prod.snd⟩
            (removeCompF cid σ)),
        unused := unused,
        log := log ++ [Evt.removeComp cid, Evt.createComp cid] } := by
  have hm : (c.type == ty && owner == i) = false := by
    rw [Bool.and_eq_false_iff]
    by_cases h1 : c.type = ty
    · have h2 : ¬ owner = i := fun h2 => hmis ⟨h1, h2⟩
      exact Or.inr (by simp [h2])
    · exact Or.inl (by simp [h1])
  simp [read_component, rdNat, hfound, hm, hreg]

theorem read_component_abort {ctx : Ctx} {i cid ty : Nat} {AB : List Nat}
    {σ : List NTree} {unused : List Nat} {log : List Evt} {owner : Nat}
    {c : Comp} (hfound : findCompF cid σ = some (owner, c))
    (hmis : ¬ (c.type = ty ∧ owner = i)) (hreg : ctx.registered ty = false) :
    read_component ctx i
        { buf := cid :: ty :: AB, scene := σ, unused := unused, log := log }
    = { buf := AB, scene := removeCompF cid σ, unused := unused,
        log := log ++ [Evt.removeComp cid, Evt.abortComp cid] } := by
  have hm : (c.type == ty && owner == i) = false := by
    rw [Bool.and_eq_false_iff]
    by_cases h1 : c.type = ty
    · have h2 : ¬ owner = i := fun h2 => hmis ⟨h1, h2⟩
      exact Or.inr (by simp [h2])
    · exact Or.inl (by simp [h1])
  simp [read_component, rdNat, hfound, hm, hreg]

/-
Loop lemmas for the fresh-decode pass: user variables and components of a
node under construction.
-/

theorem rt_vars (i : Nat) (vs : List (Nat × Nat))
    (parent : Option Nat) (σ : List NTree) (b : List Nat)
    (w : List (Nat × Nat)) (cs : List Comp) (acc : List NTree)
    (R : List Nat) (unused : List Nat) (log : List Evt)
    (hi : i ∉ idsF σ) :
    iterRead (read_var_step i) vs.length
      { buf := write_vars vs ++ R,
        scene := createChild parent (.node i b w cs acc) σ,
        unused := unused, log := log }
    = { buf := R,
        scene := createChild parent
          (.node i b (vs.foldl (fun ww kv => setVarL kv.1 kv.2 ww) w) cs acc)
          σ,
        unused := unused, log := log } := by
  induction vs generalizing w with
  | nil => rfl
  | cons kv vs ih =>
    obtain ⟨k, x⟩ := kv
    simp only [List.length_cons, iterRead, write_vars, List.cons_append]
    have hstep : read_var_step i
        { buf := k :: x :: (write_vars vs ++ R),
          scene := createChild parent (.node i b w cs acc) σ,
          unused := unused, log := log }
        = { buf := write_vars vs ++ R,
            scene := createChild parent (.node i b (setVarL k x w) cs acc) σ,
            unused := unused, log := log } := by
      simp only [read_var_step, rdNat]
      rw [updNodeF_createChild hi, updNodeT_mk]
      rfl
    rw [hstep, ih]
    rfl

theorem foldl_setVar_append {vs w : List (Nat × Nat)}
    (hd : ∀ k ∈ vs.map Prod.fst, k ∉ w.map Prod.fst)
    (hnd : (vs.map Prod.fst).Nodup) :
    vs.foldl (fun ww kv => setVarL kv.1 kv.2 ww) w = w ++ vs := by
  induction vs generalizing w with
  | nil => simp
  | cons kv vs ih =>
    obtain ⟨k, x⟩ := kv
    simp only [List.map_cons, List.nodup_cons] at hnd
    simp only [List.foldl_cons]
    rw [setVarL_fresh (hd k (by simp))]
    rw [ih (fun q hq => ?_) hnd.2]
    · simp
    · simp only [List.map_append, List.mem_append, List.map_cons, not_or]
      refine ⟨hd q (by simp [hq]), ?_⟩
      simp only [List.map_nil, List.mem_singleton]
      intro he
      exact hnd.1 (he ▸ hq)

theorem rt_comps (ctx : Ctx) (i : Nat) (cs : List Comp)
    (parent : Option Nat) (σ : List NTree) (b : List Nat)
    (v : List (Nat × Nat)) (accC : List Comp) (acc : List NTree)
    (R : List Nat) (unused : List Nat) (log : List Evt)
    (hp : parentOk parent σ) (hi : i ∉ idsF σ)
    (hwf : ∀ c ∈ cs, wfC ctx c = true)
    (hfresh : ∀ c ∈ cs, c.id ∉ compIdsF σ ∧ c.id ∉ accC.map Comp.id
      ∧ c.id ∉ compIdsF acc)
    (hnd : (cs.map Comp.id).Nodup) :
    iterRead (read_component ctx i) cs.length
      { buf := write_comps ctx cs ++ R,
        scene := createChild parent (.node i b v accC acc) σ,
        unused := unused, log := log }
    = { buf := R,
        scene := createChild parent
          (.node i b v (accC ++ cs.map (decComp ctx)) acc) σ,
        unused := unused,
        log := log ++ cs.map (fun c => Evt.createComp c.id) } := by
  induction cs generalizing accC log with
  | nil => simp [iterRead, write_comps]
  | cons c cs ih =>
    obtain ⟨hreg, hlen⟩ := wfC_parts (hwf c (by simp))
    obtain ⟨hf1, hf2, hf3⟩ := hfresh c (by simp)
    simp only [List.map_cons, List.nodup_cons] at hnd
    simp only [List.length_cons, iterRead, write_comps, write_component,
      List.cons_append, List.append_assoc]
    have hfound : findCompF c.id
        (createChild parent (.node i b v accC acc) σ) = none := by
      rw [findCompF_createChild hf1 hp]
      simp only [findCompT, find_comp_list_not_mem hf2]
      exact findCompF_not_mem hf3
    rw [read_component_fresh hfound hreg]
    rw [read_write_attrs (write_comps ctx cs ++ R) (by simp) hlen]
    simp only []
    have hscene : updCompF c.id (fun d => { d with attrs := blendAttrs (ctx.compAttrs c.type) ((ctx.compAttrs c.type).map Prod.snd) c.attrs }) (addComp i ⟨c.id, c.type, (ctx.compAttrs c.type).map Prod.snd⟩ (createChild parent (.node i b v accC acc) σ)) = createChild parent (.node i b v (accC ++ [decComp ctx c]) acc) σ := by
      rw [addComp, updNodeF_createChild hi, updNodeT_mk]
      rw [updCompF_createChild hf1]
      congr 1
      simp only [appendCompN, updCompT]
      rw [updCompF_not_mem hf3]
      rw [List.map_append, upd_comp_list_not_mem hf2]
      simp [decComp]
    rw [hscene]
    have hfresh2 : ∀ d ∈ cs, d.id ∉ compIdsF σ
        ∧ d.id ∉ (accC ++ [decComp ctx c]).map Comp.id
        ∧ d.id ∉ compIdsF acc := by
      intro d hd
      obtain ⟨g1, g2, g3⟩ := hfresh d (by simp [hd])
      refine ⟨g1, ?_, g3⟩
      simp only [List.map_append, List.mem_append, not_or]
      refine ⟨g2, ?_⟩
      simp only [List.map_cons, List.map_nil, List.mem_singleton, decComp]
      intro he
      exact hnd.1 (he ▸ List.mem_map_of_mem Comp.id hd)
    rw [ih (accC ++ [decComp ctx c]) (log ++ [Evt.createComp c.id])
      (fun d hd => hwf d (by simp [hd])) hfresh2 hnd.2]
    simp [List.append_assoc]

/-
Characterizations of the read_node header stage.
-/

theorem read_node_header_new {ctx : Ctx} {nid : Nat} {parent : Option Nat}
    {σ : List NTree} {a REST : List Nat} {unused : List Nat} {log : List Evt}
    (hi : nid ∉ idsF σ) (hp : parentOk parent σ)
    (hlen : a.length = ctx.nodeAttrs.length) :
    read_node_header ctx nid parent
      { buf := write_network_attributes ctx.nodeAttrs a ++ REST,
        scene := σ, unused := unused, log := log }
    = { buf := REST,
        scene := createChild parent
          (.node nid (blendAttrs ctx.nodeAttrs (ctx.nodeAttrs.map Prod.snd) a)
            [] [] []) σ,
        unused := unused, log := log ++ [Evt.createNode nid] } := by
  have hrw : read_network_attributes ctx.nodeAttrs
      (ctx.nodeAttrs.map Prod.snd)
      (write_network_attributes ctx.nodeAttrs a ++ REST)
      = (blendAttrs ctx.nodeAttrs (ctx.nodeAttrs.map Prod.snd) a, REST) :=
    read_write_attrs REST (by simp) hlen
  simp only [read_node_header, findNodeF_not_mem hi, Option.isNone_none,
    if_true, findNodeF_createChild hi hp, findNodeT_mk, NTree.attrs,
    hrw, updNodeF_createChild hi,
    updNodeT_mk, setAttrsN, NTree.comps, List.any_nil, Bool.and_false,
    Bool.false_eq_true, if_false]

theorem read_node_header_found {ctx : Ctx} {nid : Nat} {parent : Option Nat}
    {σ : List NTree} {u : NTree} {vals REST : List Nat} {unused : List Nat}
    {log : List Evt} (hfind : findNodeF nid σ = some u)
    (hcl : u.attrs.length = ctx.nodeAttrs.length)
    (hvl : vals.length = ctx.nodeAttrs.length) :
    read_node_header ctx nid parent
      { buf := write_network_attributes ctx.nodeAttrs vals ++ REST,
        scene := σ, unused := unused, log := log }
    = { buf := REST,
        scene := updNodeF nid
          (setAttrsN (blendAttrs ctx.nodeAttrs u.attrs vals)) σ,
        unused := unused.filter (fun j => j ≠ nid), log := log } := by
  have hrw : read_network_attributes ctx.nodeAttrs u.attrs
      (write_network_attributes ctx.nodeAttrs vals ++ REST)
      = (blendAttrs ctx.nodeAttrs u.attrs vals, REST) :=
    read_write_attrs REST hcl hvl
  simp only [read_node_header, hfind, Option.isNone_some,
    Bool.false_eq_true, if_false, Bool.false_and, hrw]


/-
The fresh-decode theorem: reading the encoding of a tree whose ids are
absent from the receiving scene appends its decode image under the
traversal parent.
-/

theorem rdNat_cons (x : Nat) (r : List Nat) : rdNat (x :: r) = (x, r) := rfl

theorem map_id_decComp (ctx : Ctx) (cs : List Comp) :
    (cs.map (decComp ctx)).map Comp.id = cs.map Comp.id := by
  simp only [List.map_map]
  rfl

mutual
theorem rt_node (ctx : Ctx) (t : NTree) (σ : List NTree)
    (parent : Option Nat) (R : List Nat) (unused : List Nat) (log : List Evt)
    (fuel : Nat) (hfuel : heightT t ≤ fuel) (hwf : wfT ctx t = true)
    (hparent : parentOk parent σ)
    (hfreshN : ∀ j ∈ idsT t, j ∉ idsF σ)
    (hfreshC : ∀ cj ∈ compIdsT t, cj ∉ compIdsF σ)
    (hndN : (idsT t).Nodup) (hndC : (compIdsT t).Nodup) :
    read_node ctx fuel parent
      { buf := write_node ctx t ++ R, scene := σ, unused := unused,
        log := log }
    = { buf := R, scene := createChild parent (decT ctx t) σ,
        unused := unused, log := log ++ dlogT t } := by
  cases t with
  | node i a v cs ch =>
  cases fuel with
  | zero => simp [heightT] at hfuel
  | succ f =>
    obtain ⟨hlen, hvnd, hcwf, hchwf⟩ := wfT_parts hwf
    have hiσ : i ∉ idsF σ := hfreshN i (by simp [idsT])
    simp only [idsT, List.nodup_cons] at hndN
    simp only [compIdsT] at hndC
    have hdisC : ∀ cj ∈ compIdsF ch, cj ∉ cs.map Comp.id :=
      fun cj hcj hin => (List.disjoint_of_nodup_append hndC) hin hcj
    simp only [write_node, List.cons_append, List.append_assoc]
    simp only [read_node, rdNat_cons]
    rw [read_node_header_new hiσ hparent hlen]
    simp only [read_node_vars, rdNat_cons]
    rw [rt_vars i v parent σ _ [] [] [] _ unused _ hiσ]
    have hfold : v.foldl (fun ww kv => setVarL kv.1 kv.2 ww) [] = v := by
      rw [foldl_setVar_append (by simp) hvnd]
      simp
    rw [hfold]
    simp only [read_node_comps, rdNat_cons]
    rw [rt_comps ctx i cs parent σ _ v [] [] _ unused _ hparent hiσ hcwf
      (fun c hc => ⟨hfreshC c.id (by
          simp only [compIdsT, List.mem_append]
          exact Or.inl (List.mem_map_of_mem Comp.id hc)),
        by simp, by simp [compIdsF]⟩)
      hndC.of_append_left]
    simp only [List.nil_append, rdNat_cons]
    rw [rt_list ctx ch σ parent i _ v _ [] R unused _ f
      (by simp only [heightT] at hfuel; omega) hchwf hparent hiσ
      (fun j hj => ⟨hfreshN j (by simp [idsT, List.mem_cons, hj]),
        fun he => hndN.1 (he ▸ hj), by simp [idsF]⟩)
      (fun cj hcj => ⟨hfreshC cj (by simp [compIdsT, List.mem_append, hcj]),
        by rw [map_id_decComp]; exact hdisC cj hcj, by simp [compIdsF]⟩)
      hndN.2 (List.Nodup.of_append_right hndC)]
    simp only [decT, dlogT, List.nil_append, List.append_assoc,
      List.cons_append, List.nil_append]
termination_by sizeOf t
theorem rt_list (ctx : Ctx) (ts : List NTree) (σ : List NTree)
    (parent : Option Nat) (i : Nat) (b : List Nat) (v : List (Nat × Nat))
    (cs : List Comp) (acc : List NTree) (R : List Nat) (unused : List Nat)
    (log : List Evt) (fuel : Nat)
    (hfuel : heightF ts ≤ fuel) (hwf : wfF ctx ts = true)
    (hparent : parentOk parent σ) (hi : i ∉ idsF σ)
    (hfN : ∀ j ∈ idsF ts, j ∉ idsF σ ∧ j ≠ i ∧ j ∉ idsF acc)
    (hfC : ∀ cj ∈ compIdsF ts, cj ∉ compIdsF σ ∧ cj ∉ cs.map Comp.id
      ∧ cj ∉ compIdsF acc)
    (hndN : (idsF ts).Nodup) (hndC : (compIdsF ts).Nodup) :
    iterRead (fun s => read_node ctx fuel (some i) s) ts.length
      { buf := write_nodesF ctx ts ++ R,
        scene := createChild parent (.node i b v cs acc) σ,
        unused := unused, log := log }
    = { buf := R,
        scene := createChild parent (.node i b v cs (acc ++ decF ctx ts)) σ,
        unused := unused, log := log ++ dlogF ts } := by
  cases ts with
  | nil => simp [iterRead, write_nodesF, decF, dlogF]
  | cons t ts =>
    obtain ⟨hwt, hwts⟩ := wfF_parts hwf
    rw [idsF] at hndN hfN
    rw [compIdsF] at hndC hfC
    rw [List.nodup_append] at hndN hndC
    simp only [List.length_cons, iterRead, write_nodesF, List.append_assoc]
    have hparent1 : parentOk (some i) (createChild parent
        (NTree.node i b v cs acc) σ) := by
      intro p hp
      cases hp
      exact ids_createChild_memd hparent (by simp [idsT])
    have hfreshN1 : ∀ j ∈ idsT t, j ∉ idsF (createChild parent
        (NTree.node i b v cs acc) σ) := by
      intro j hj hmem
      obtain ⟨g1, g2, g3⟩ := hfN j (List.mem_append.mpr (Or.inl hj))
      rcases ids_createChild_sub hmem with hm | hm
      · exact g1 hm
      · simp only [idsT, List.mem_cons] at hm
        rcases hm with hm | hm
        · exact g2 hm
        · exact g3 hm
    have hfreshC1 : ∀ cj ∈ compIdsT t, cj ∉ compIdsF (createChild parent
        (NTree.node i b v cs acc) σ) := by
      intro cj hcj hmem
      obtain ⟨g1, g2, g3⟩ := hfC cj (List.mem_append.mpr (Or.inl hcj))
      rcases compIds_createChild_sub hmem with hm | hm
      · exact g1 hm
      · simp only [compIdsT, List.mem_append] at hm
        rcases hm with hm | hm
        · exact g2 hm
        · exact g3 hm
    rw [rt_node ctx t (createChild parent (NTree.node i b v cs acc) σ)
      (some i) (write_nodesF ctx ts ++ R) unused log fuel
      (le_trans (le_max_left _ _) hfuel) hwt hparent1 hfreshN1 hfreshC1
      hndN.1 hndC.1]
    have hfuse : createChild (some i) (decT ctx t)
        (createChild parent (NTree.node i b v cs acc) σ)
        = createChild parent (NTree.node i b v cs (acc ++ [decT ctx t])) σ := by
      conv in createChild (some i) _ _ => rw [createChild]
      rw [updNodeF_createChild hi, updNodeT_mk]
      rfl
    rw [hfuse]
    have hfN2 : ∀ j ∈ idsF ts, j ∉ idsF σ ∧ j ≠ i
        ∧ j ∉ idsF (acc ++ [decT ctx t]) := by
      intro j hj
      obtain ⟨g1, g2, g3⟩ := hfN j (List.mem_append.mpr (Or.inr hj))
      refine ⟨g1, g2, ?_⟩
      rw [idsF_append, idsF_singleton, idsT_decT]
      simp only [List.mem_append, not_or]
      exact ⟨g3, fun hin => hndN.2.2 hin hj⟩
    have hfC2 : ∀ cj ∈ compIdsF ts, cj ∉ compIdsF σ ∧ cj ∉ cs.map Comp.id
        ∧ cj ∉ compIdsF (acc ++ [decT ctx t]) := by
      intro cj hcj
      obtain ⟨g1, g2, g3⟩ := hfC cj (List.mem_append.mpr (Or.inr hcj))
      refine ⟨g1, g2, ?_⟩
      rw [compIdsF_append, compIdsF_singleton, compIdsT_decT]
      simp only [List.mem_append, not_or]
      exact ⟨g3, fun hin => hndC.2.2 hin hcj⟩
    rw [rt_list ctx ts σ parent i b v cs (acc ++ [decT ctx t])
      R unused (log ++ dlogT t) fuel
      (le_trans (le_max_right _ _) hfuel) hwts hparent hi hfN2 hfC2
      hndN.2.1 hndC.2.1]
    simp [decF, dlogF, List.append_assoc]
termination_by sizeOf ts
end

theorem rt_roots (ctx : Ctx) (R : List Nat) (unused : List Nat)
    (fuel : Nat) :
    ∀ (ts σacc : List NTree) (log : List Evt),
    heightF ts ≤ fuel → wfF ctx ts = true →
    (∀ j ∈ idsF ts, j ∉ idsF σacc) →
    (∀ cj ∈ compIdsF ts, cj ∉ compIdsF σacc) →
    (idsF ts).Nodup → (compIdsF ts).Nodup →
    iterRead (fun s => read_node ctx fuel none s) ts.length
      { buf := write_nodesF ctx ts ++ R, scene := σacc, unused := unused,
        log := log }
    = { buf := R, scene := σacc ++ decF ctx ts, unused := unused,
        log := log ++ dlogF ts } := by
  intro ts
  induction ts with
  | nil =>
    intro σacc log hfuel hwf hfN hfC hndN hndC
    simp [iterRead, write_nodesF, decF, dlogF]
  | cons t ts ih =>
    intro σacc log hfuel hwf hfN hfC hndN hndC
    obtain ⟨hwt, hwts⟩ := wfF_parts hwf
    rw [idsF] at hndN hfN
    rw [compIdsF] at hndC hfC
    rw [List.nodup_append] at hndN hndC
    simp only [List.length_cons, iterRead, write_nodesF, List.append_assoc]
    rw [rt_node ctx t σacc none (write_nodesF ctx ts ++ R) unused log fuel
      (le_trans (le_max_left _ _) hfuel) hwt
      (fun p hp => Option.noConfusion hp)
      (fun j hj => hfN j (List.mem_append.mpr (Or.inl hj)))
      (fun cj hcj => hfC cj (List.mem_append.mpr (Or.inl hcj)))
      hndN.1 hndC.1]
    simp only [createChild]
    rw [ih (σacc ++ [decT ctx t]) (log ++ dlogT t)
      (le_trans (le_max_right _ _) hfuel) hwts
      (fun j hj => ?_) (fun cj hcj => ?_) hndN.2.1 hndC.2.1]
    · simp [decF, dlogF, List.append_assoc]
    · rw [idsF_append, idsF_singleton, idsT_decT]
      simp only [List.mem_append, not_or]
      exact ⟨hfN j (List.mem_append.mpr (Or.inr hj)),
        fun hin => hndN.2.2 hin hj⟩
    · rw [compIdsF_append, compIdsF_singleton, compIdsT_decT]
      simp only [List.mem_append, not_or]
      exact ⟨hfC cj (List.mem_append.mpr (Or.inr hcj)),
        fun hin => hndC.2.2 hin hcj⟩

theorem idsF_mem_of_mem {t : NTree} {σ : List NTree} (h : t ∈ σ) :
    t.id ∈ idsF σ := by
  induction σ with
  | nil => simp at h
  | cons u us ih =>
    rcases List.mem_cons.mp h with hh | hh
    · subst hh
      cases t with
      | node i a v c ch => simp [idsF, idsT, NTree.id]
    · simp only [idsF, List.mem_append]
      exact Or.inr (ih hh)

theorem findNodeF_roots {σ : List NTree} (hnd : (idsF σ).Nodup) :
    ∀ t ∈ σ, findNodeF t.id σ = some t := by
  induction σ with
  | nil => simp
  | cons u us ih =>
    rw [idsF, List.nodup_append] at hnd
    intro t ht
    rcases List.mem_cons.mp ht with hh | hh
    · subst hh
      simp only [findNodeF, findNodeT_root rfl]
    · have hnot : t.id ∉ idsT u :=
        fun hin => hnd.2.2 hin (idsF_mem_of_mem hh)
      simp only [findNodeF, findNodeT_not_mem hnot]
      exact ih hnd.2.1 t hh

theorem write_roots_eq (ctx : Ctx) (full : List NTree) :
    ∀ (σ : List NTree), (∀ t ∈ σ, findNodeF t.id full = some t) →
    write_roots ctx full (σ.map NTree.id) = write_nodesF ctx σ := by
  intro σ
  induction σ with
  | nil => intro h; rfl
  | cons t ts ih =>
    intro h
    simp only [List.map_cons, write_roots, h t (by simp), write_nodesF]
    rw [ih (fun u hu => h u (by simp [hu]))]

theorem filter_roots_eq {full : List NTree} :
    ∀ (σ : List NTree), (∀ t ∈ σ, findNodeF t.id full = some t) →
    (σ.map NTree.id).filter (fun i => (findNodeF i full).isSome)
      = σ.map NTree.id := by
  intro σ
  induction σ with
  | nil => intro h; rfl
  | cons t ts ih =>
    intro h
    simp only [List.map_cons, List.filter_cons, h t (by simp),
      Option.isSome_some, if_true]
    rw [ih (fun u hu => h u (by simp [hu]))]

theorem write_state_live (ctx : Ctx) (σ : List NTree)
    (hnd : (idsF σ).Nodup) :
    write_state ctx ⟨σ.map NTree.id⟩ σ
      = (σ.length :: write_nodesF ctx σ, ⟨σ.map NTree.id⟩) := by
  have hfind := findNodeF_roots hnd
  simp only [write_state, filter_roots_eq σ hfind, write_roots_eq ctx σ σ
    hfind, List.length_map]

theorem scrubC_decComp {ctx : Ctx} {c : Comp} (hwfc : wfC ctx c = true) :
    scrubC ctx (decComp ctx c) = scrubC ctx c := by
  obtain ⟨hreg, hlen⟩ := wfC_parts hwfc
  simp only [scrubC, decComp]
  rw [scrub_blendAttrs (by simp) hlen]

mutual
theorem scrubT_decT (ctx : Ctx) (t : NTree) (hwf : wfT ctx t = true) :
    scrubT ctx (decT ctx t) = scrubT ctx t := by
  cases t with
  | node i a v cs ch =>
    obtain ⟨hlen, hvnd, hcwf, hchwf⟩ := wfT_parts hwf
    simp only [decT, scrubT]
    rw [scrub_blendAttrs (by simp) hlen, scrubF_decF ctx ch hchwf,
      List.map_map]
    congr 1
    exact List.map_congr_left (fun c hc => scrubC_decComp (hcwf c hc))
theorem scrubF_decF (ctx : Ctx) (ts : List NTree)
    (hwf : wfF ctx ts = true) : scrubF ctx (decF ctx ts) = scrubF ctx ts := by
  cases ts with
  | nil => rfl
  | cons t ts =>
    obtain ⟨hwt, hwts⟩ := wfF_parts hwf
    simp only [decF, scrubF]
    rw [scrubT_decT ctx t hwt, scrubF_decF ctx ts hwts]
end

theorem decode_fresh (ctx : Ctx) (σ : List NTree)
    (hwf : wfF ctx σ = true) (hndN : (idsF σ).Nodup)
    (hndC : (compIdsF σ).Nodup) :
    read_state ctx ⟨[]⟩ (σ.length :: write_nodesF ctx σ) []
    = { buf := [], scene := decF ctx σ, unused := [], log := dlogF σ } := by
  simp only [read_state, rdNat_cons]
  have hfuel : heightF σ ≤ (σ.length :: write_nodesF ctx σ).length + 1 := by
    have h := heightF_le_write ctx σ
    simp only [List.length_cons]
    omega
  have h := rt_roots ctx [] [] ((σ.length :: write_nodesF ctx σ).length + 1)
    σ [] [] hfuel hwf (by simp [idsF]) (by simp [compIdsF]) hndN hndC
  rw [List.append_nil] at h
  rw [h]
  simp

/-
Registry lemmas: in a duplicate-free scene, a subtree is found by its root
id, and a component of a subtree is found with its owner.
-/

theorem setAttrsN_self (u : NTree) : setAttrsN u.attrs u = u := by
  cases u with
  | node i a v c ch => rfl

theorem setVarsN_self (u : NTree) : setVarsN u.vars u = u := by
  cases u with
  | node i a v c ch => rfl

theorem mem_allSubT_self (t : NTree) : t ∈ allSubT t := by
  cases t with
  | node i a v c ch => simp [allSubT]

theorem mem_allSubF_of_mem {t : NTree} {σ : List NTree} (h : t ∈ σ) :
    t ∈ allSubF σ := by
  induction σ with
  | nil => simp at h
  | cons u us ih =>
    simp only [allSubF, List.mem_append]
    rcases List.mem_cons.mp h with hh | hh
    · exact Or.inl (hh ▸ mem_allSubT_self u)
    · exact Or.inr (ih hh)

mutual
theorem allSubT_children {t u w : NTree} (hm : u ∈ allSubT t)
    (hw : w ∈ u.children) : w ∈ allSubT t := by
  cases t with
  | node i a v c ch =>
    simp only [allSubT, List.mem_cons, List.mem_append] at hm ⊢
    rcases hm with hm | hm
    · subst hm
      simp only [NTree.children] at hw
      exact Or.inr (mem_allSubF_of_mem hw)
    · exact Or.inr (allSubF_children hm hw)
theorem allSubF_children {ts : List NTree} {u w : NTree}
    (hm : u ∈ allSubF ts) (hw : w ∈ u.children) : w ∈ allSubF ts := by
  cases ts with
  | nil => simp [allSubF] at hm
  | cons t ts =>
    simp only [allSubF, List.mem_append] at hm ⊢
    rcases hm with hm | hm
    · exact Or.inl (allSubT_children hm hw)
    · exact Or.inr (allSubF_children hm hw)
end

mutual
theorem allSubT_id_mem {t u : NTree} (hm : u ∈ allSubT t) :
    u.id ∈ idsT t := by
  cases t with
  | node i a v c ch =>
    simp only [allSubT, List.mem_cons] at hm
    simp only [idsT, List.mem_cons]
    rcases hm with hm | hm
    · subst hm
      simp [NTree.id]
    · exact Or.inr (allSubF_id_mem hm)
theorem allSubF_id_mem {ts : List NTree} {u : NTree}
    (hm : u ∈ allSubF ts) : u.id ∈ idsF ts := by
  cases ts with
  | nil => simp [allSubF] at hm
  | cons t ts =>
    simp only [allSubF, List.mem_append] at hm
    simp only [idsF, List.mem_append]
    rcases hm with hm | hm
    · exact Or.inl (allSubT_id_mem hm)
    · exact Or.inr (allSubF_id_mem hm)
end

mutual
theorem allSubT_compId_mem {t u : NTree} {c : Comp} (hm : u ∈ allSubT t)
    (hc : c ∈ u.comps) : c.id ∈ compIdsT t := by
  cases t with
  | node i a v cs ch =>
    simp only [allSubT, List.mem_cons] at hm
    simp only [compIdsT, List.mem_append]
    rcases hm with hm | hm
    · subst hm
      simp only [NTree.comps] at hc
      exact Or.inl (List.mem_map_of_mem Comp.id hc)
    · exact Or.inr (allSubF_compId_mem hm hc)
theorem allSubF_compId_mem {ts : List NTree} {u : NTree} {c : Comp}
    (hm : u ∈ allSubF ts) (hc : c ∈ u.comps) : c.id ∈ compIdsF ts := by
  cases ts with
  | nil => simp [allSubF] at hm
  | cons t ts =>
    simp only [allSubF, List.mem_append] at hm
    simp only [compIdsF, List.mem_append]
    rcases hm with hm | hm
    · exact Or.inl (allSubT_compId_mem hm hc)
    · exact Or.inr (allSubF_compId_mem hm hc)
end

mutual
theorem findNodeT_allSub {t u : NTree} (hnd : (idsT t).Nodup)
    (hm : u ∈ allSubT t) : findNodeT u.id t = some u := by
  cases t with
  | node i a v c ch =>
    simp only [allSubT, List.mem_cons] at hm
    simp only [idsT, List.nodup_cons] at hnd
    rcases hm with hm | hm
    · subst hm
      exact findNodeT_root rfl
    · have hne : ¬ i = u.id := by
        intro he
        exact hnd.1 (he ▸ allSubF_id_mem hm)
      simp only [findNodeT, if_neg hne]
      exact findNodeF_allSub hnd.2 hm
theorem findNodeF_allSub {ts : List NTree} {u : NTree}
    (hnd : (idsF ts).Nodup) (hm : u ∈ allSubF ts) :
    findNodeF u.id ts = some u := by
  cases ts with
  | nil => simp [allSubF] at hm
  | cons t ts =>
    rw [idsF, List.nodup_append] at hnd
    simp only [allSubF, List.mem_append] at hm
    rcases hm with hm | hm
    · simp only [findNodeF, findNodeT_allSub hnd.1 hm]
    · have hnot : u.id ∉ idsT t :=
        fun hin => hnd.2.2 hin (allSubF_id_mem hm)
      simp only [findNodeF, findNodeT_not_mem hnot]
      exact findNodeF_allSub hnd.2.1 hm
end

theorem find_comp_list_mem {cs : List Comp} {c : Comp}
    (hnd : (cs.map Comp.id).Nodup) (hc : c ∈ cs) :
    cs.find? (fun d => d.id == c.id) = some c := by
  induction cs with
  | nil => simp at hc
  | cons c0 cs ih =>
    simp only [List.map_cons, List.nodup_cons] at hnd
    rcases List.mem_cons.mp hc with hh | hh
    · subst hh
      simp [List.find?]
    · have hne : (c0.id == c.id) = false := by
        simp only [beq_eq_false_iff_ne, ne_eq]
        intro he
        exact hnd.1 (he ▸ List.mem_map_of_mem Comp.id hh)
      simp only [List.find?, hne]
      exact ih hnd.2 hh

mutual
theorem findCompT_allSub {t u : NTree} {c : Comp}
    (hnd : (compIdsT t).Nodup) (hm : u ∈ allSubT t) (hc : c ∈ u.comps) :
    findCompT c.id t = some (u.id, c) := by
  cases t with
  | node i a v cs ch =>
    rw [compIdsT, List.nodup_append] at hnd
    simp only [allSubT, List.mem_cons] at hm
    rcases hm with hm | hm
    · subst hm
      simp only [NTree.comps] at hc
      simp only [findCompT, find_comp_list_mem hnd.1 hc, NTree.id]
    · have hnot : c.id ∉ cs.map Comp.id :=
        fun hin => hnd.2.2 hin (allSubF_compId_mem hm hc)
      simp only [findCompT, find_comp_list_not_mem hnot]
      exact findCompF_allSub hnd.2.1 hm hc
theorem findCompF_allSub {ts : List NTree} {u : NTree} {c : Comp}
    (hnd : (compIdsF ts).Nodup) (hm : u ∈ allSubF ts) (hc : c ∈ u.comps) :
    findCompF c.id ts = some (u.id, c) := by
  cases ts with
  | nil => simp [allSubF] at hm
  | cons t ts =>
    rw [compIdsF, List.nodup_append] at hnd
    simp only [allSubF, List.mem_append] at hm
    rcases hm with hm | hm
    · simp only [findCompF, findCompT_allSub hnd.1 hm hc]
    · have hnot : c.id ∉ compIdsT t :=
        fun hin => hnd.2.2 hin (allSubF_compId_mem hm hc)
      simp only [findCompF, findCompT_not_mem hnot]
      exact findCompF_allSub hnd.2.1 hm hc
end

/-
Identity updates: re-applying an update that fixes the unique target node
or component leaves the scene unchanged.
-/

mutual
theorem findNodeT_none_not_mem {i : Nat} {t : NTree}
    (h : findNodeT i t = none) : i ∉ idsT t := by
  cases t with
  | node id a v c ch =>
    simp only [findNodeT] at h
    by_cases hid : id = i
    · simp [hid] at h
    · simp only [if_neg hid] at h
      simp only [idsT, List.mem_cons, not_or]
      exact ⟨fun he => hid he.symm, findNodeF_none_not_mem h⟩
theorem findNodeF_none_not_mem {i : Nat} {ts : List NTree}
    (h : findNodeF i ts = none) : i ∉ idsF ts := by
  cases ts with
  | nil => simp [idsF]
  | cons t ts =>
    simp only [findNodeF] at h
    cases hft : findNodeT i t with
    | some r => rw [hft] at h; cases h
    | none =>
      rw [hft] at h
      simp only [] at h
      simp only [idsF, List.mem_append, not_or]
      exact ⟨findNodeT_none_not_mem hft, findNodeF_none_not_mem h⟩
end

theorem findNodeT_some_mem {i : Nat} {t : NTree} {u : NTree}
    (h : findNodeT i t = some u) : i ∈ idsT t := by
  by_contra hc
  rw [findNodeT_not_mem hc] at h
  cases h

mutual
theorem updNodeT_id {i : Nat} {f : NTree → NTree} {t u : NTree}
    (hnd : (idsT t).Nodup) (hfind : findNodeT i t = some u)
    (hid : f u = u) : updNodeT i f t = t := by
  cases t with
  | node id a v c ch =>
    simp only [idsT, List.nodup_cons] at hnd
    by_cases hid2 : id = i
    · simp only [findNodeT, if_pos hid2] at hfind
      obtain rfl := Option.some.injEq .. ▸ hfind
      simp only [updNodeT, if_pos hid2]
      exact hid
    · simp only [findNodeT, if_neg hid2] at hfind
      simp only [updNodeT, if_neg hid2]
      rw [updNodeF_id hnd.2 hfind hid]
theorem updNodeF_id {i : Nat} {f : NTree → NTree} {ts : List NTree}
    {u : NTree} (hnd : (idsF ts).Nodup) (hfind : findNodeF i ts = some u)
    (hid : f u = u) : updNodeF i f ts = ts := by
  cases ts with
  | nil => rfl
  | cons t ts =>
    rw [idsF, List.nodup_append] at hnd
    simp only [findNodeF] at hfind
    simp only [updNodeF]
    cases hft : findNodeT i t with
    | some r =>
      rw [hft] at hfind
      simp only [Option.some.injEq] at hfind
      subst hfind
      rw [updNodeT_id hnd.1 hft hid]
      rw [updNodeF_not_mem
        (fun hin => hnd.2.2 (findNodeT_some_mem hft) hin)]
    | none =>
      rw [hft] at hfind
      simp only [] at hfind
      rw [updNodeT_not_mem (findNodeT_none_not_mem hft)]
      rw [updNodeF_id hnd.2.1 hfind hid]
end

theorem upd_comp_list_id {ci : Nat} {f : Comp → Comp} {cs : List Comp}
    {c : Comp} (hnd : (cs.map Comp.id).Nodup)
    (hfind : cs.find? (fun d => d.id == ci) = some c) (hid : f c = c) :
    cs.map (fun d => if d.id = ci then f d else d) = cs := by
  induction cs with
  | nil => simp at hfind
  | cons c0 cs ih =>
    simp only [List.map_cons, List.nodup_cons] at hnd
    simp only [List.find?] at hfind
    by_cases h0 : c0.id = ci
    · have hb : (c0.id == ci) = true := by simp [h0]
      rw [hb] at hfind
      simp only [Option.some.injEq] at hfind
      subst hfind
      simp only [List.map_cons, if_pos h0, hid]
      rw [upd_comp_list_not_mem (h0 ▸ hnd.1)]
    · have hb : (c0.id == ci) = false := by simp [h0]
      rw [hb] at hfind
      simp only [List.map_cons, if_neg h0]
      rw [ih hnd.2 hfind]

theorem find_comp_list_some_mem {ci : Nat} {cs : List Comp} {c : Comp}
    (h : cs.find? (fun d => d.id == ci) = some c) : ci ∈ cs.map Comp.id := by
  by_contra hc
  rw [find_comp_list_not_mem hc] at h
  cases h

mutual
theorem findCompT_none_not_mem {ci : Nat} {t : NTree}
    (h : findCompT ci t = none) : ci ∉ compIdsT t := by
  cases t with
  | node id a v cs ch =>
    simp only [findCompT] at h
    cases hcs : cs.find? (fun d => d.id == ci) with
    | some c => rw [hcs] at h; cases h
    | none =>
      rw [hcs] at h
      simp only [] at h
      simp only [compIdsT, List.mem_append, not_or]
      refine ⟨?_, findCompF_none_not_mem h⟩
      intro hin
      exact absurd hcs (by
        intro hx
        rcases List.mem_map.mp hin with ⟨d, hd, hdi⟩
        have := List.find?_eq_none.mp hx d hd
        simp [hdi] at this)
theorem findCompF_none_not_mem {ci : Nat} {ts : List NTree}
    (h : findCompF ci ts = none) : ci ∉ compIdsF ts := by
  cases ts with
  | nil => simp [compIdsF]
  | cons t ts =>
    simp only [findCompF] at h
    cases hft : findCompT ci t with
    | some r => rw [hft] at h; cases h
    | none =>
      rw [hft] at h
      simp only [] at h
      simp only [compIdsF, List.mem_append, not_or]
      exact ⟨findCompT_none_not_mem hft, findCompF_none_not_mem h⟩
end

theorem findCompT_some_mem {ci : Nat} {t : NTree} {r : Nat × Comp}
    (h : findCompT ci t = some r) : ci ∈ compIdsT t := by
  by_contra hc
  rw [findCompT_not_mem hc] at h
  cases h

mutual
theorem updCompT_id {ci : Nat} {f : Comp → Comp} {t : NTree}
    {nid : Nat} {c : Comp} (hnd : (compIdsT t).Nodup)
    (hfind : findCompT ci t = some (nid, c)) (hid : f c = c) :
    updCompT ci f t = t := by
  cases t with
  | node id a v cs ch =>
    rw [compIdsT, List.nodup_append] at hnd
    simp only [findCompT] at hfind
    simp only [updCompT]
    cases hcs : cs.find? (fun d => d.id == ci) with
    | some c0 =>
      rw [hcs] at hfind
      simp only [Option.some.injEq, Prod.mk.injEq] at hfind
      rw [upd_comp_list_id hnd.1 (hfind.2 ▸ hcs) hid]
      rw [updCompF_not_mem
        (fun hin => hnd.2.2 (find_comp_list_some_mem hcs) hin)]
    | none =>
      rw [hcs] at hfind
      simp only [] at hfind
      have hnotin : ci ∉ cs.map Comp.id := by
        intro hin
        rcases List.mem_map.mp hin with ⟨d, hd, hdi⟩
        have := List.find?_eq_none.mp hcs d hd
        simp [hdi] at this
      rw [upd_comp_list_not_mem hnotin]
      rw [updCompF_id hnd.2.1 hfind hid]
theorem updCompF_id {ci : Nat} {f : Comp → Comp} {ts : List NTree}
    {nid : Nat} {c : Comp} (hnd : (compIdsF ts).Nodup)
    (hfind : findCompF ci ts = some (nid, c)) (hid : f c = c) :
    updCompF ci f ts = ts := by
  cases ts with
  | nil => rfl
  | cons t ts =>
    rw [compIdsF, List.nodup_append] at hnd
    simp only [findCompF] at hfind
    simp only [updCompF]
    cases hft : findCompT ci t with
    | some r =>
      rw [hft] at hfind
      simp only [Option.some.injEq] at hfind
      subst hfind
      rw [updCompT_id hnd.1 hft hid]
      rw [updCompF_not_mem
        (fun hin => hnd.2.2 (findCompT_some_mem hft) hin)]
    | none =>
      rw [hft] at hfind
      simp only [] at hfind
      rw [updCompT_not_mem (findCompT_none_not_mem hft)]
      rw [updCompF_id hnd.2.1 hfind hid]
end

/-
Re-apply (idempotence) loop lemmas.
-/

theorem rt2_vars {i : Nat} {σ : List NTree} {u : NTree}
    (hnd : (idsF σ).Nodup) (hfind : findNodeF i σ = some u) :
    ∀ (w : List (Nat × Nat)) (R : List Nat) (unused : List Nat)
      (log : List Evt), (∀ kv ∈ w, setVarL kv.1 kv.2 u.vars = u.vars) →
    iterRead (read_var_step i) w.length
      { buf := write_vars w ++ R, scene := σ, unused := unused, log := log }
    = { buf := R, scene := σ, unused := unused, log := log } := by
  intro w
  induction w with
  | nil => intro R unused log h; rfl
  | cons kv w ih =>
    intro R unused log h
    obtain ⟨k, x⟩ := kv
    simp only [List.length_cons, iterRead, write_vars, List.cons_append]
    have hstep : read_var_step i
        { buf := k :: x :: (write_vars w ++ R), scene := σ,
          unused := unused, log := log }
        = { buf := write_vars w ++ R, scene := σ, unused := unused,
            log := log } := by
      simp only [read_var_step, rdNat_cons]
      rw [updNodeF_id hnd hfind]
      have hset : setVarL k x u.vars = u.vars := h (k, x) (by simp)
      rw [hset]
      exact setVarsN_self u
    rw [hstep]
    exact ih R unused log (fun kv hkv => h kv (by simp [hkv]))

theorem rt2_comps {ctx : Ctx} {i : Nat} {σ : List NTree}
    (hnd : (compIdsF σ).Nodup) :
    ∀ (cs : List Comp) (R : List Nat) (unused : List Nat) (log : List Evt),
    (∀ c ∈ cs, wfC ctx c = true
      ∧ findCompF c.id σ = some (i, decComp ctx c)) →
    iterRead (read_component ctx i) cs.length
      { buf := write_comps ctx cs ++ R, scene := σ, unused := unused,
        log := log }
    = { buf := R, scene := σ, unused := unused, log := log } := by
  intro cs
  induction cs with
  | nil => intro R unused log h; rfl
  | cons c cs ih =>
    intro R unused log h
    obtain ⟨hwfc, hfind⟩ := h c (by simp)
    obtain ⟨hreg, hlen⟩ := wfC_parts hwfc
    simp only [List.length_cons, iterRead, write_comps, write_component,
      List.cons_append, List.append_assoc]
    rw [read_component_match hfind (decComp_type ctx c) rfl]
    have hblen : (decComp ctx c).attrs.length
        = (ctx.compAttrs c.type).length := by
      simp only [decComp]
      exact blendAttrs_length (by simp) hlen
    have hrw : read_network_attributes (ctx.compAttrs c.type)
        (decComp ctx c).attrs
        (write_network_attributes (ctx.compAttrs c.type) c.attrs
          ++ (write_comps ctx cs ++ R))
        = (blendAttrs (ctx.compAttrs c.type) (decComp ctx c).attrs c.attrs,
            write_comps ctx cs ++ R) :=
      read_write_attrs _ hblen hlen
    rw [hrw]
    simp only []
    have hblend : blendAttrs (ctx.compAttrs c.type) (decComp ctx c).attrs
        c.attrs = (decComp ctx c).attrs := by
      simp only [decComp]
      exact blendAttrs_idem (by simp) hlen
    rw [hblend]
    have hfix : (fun d => { d with
        attrs := (decComp ctx c).attrs }) (decComp ctx c)
        = decComp ctx c := rfl
    rw [updCompF_id hnd hfind hfix]
    exact ih R unused log (fun d hd => h d (by simp [hd]))

theorem decF_mem {ctx : Ctx} {w : NTree} {ts : List NTree} (h : w ∈ ts) :
    decT ctx w ∈ decF ctx ts := by
  induction ts with
  | nil => simp at h
  | cons t ts ih =>
    simp only [decF, List.mem_cons]
    rcases List.mem_cons.mp h with hh | hh
    · exact Or.inl (hh ▸ rfl)
    · exact Or.inr (ih hh)

mutual
theorem rt2_node (ctx : Ctx) (t : NTree) (σ : List NTree)
    (parent : Option Nat) (R : List Nat) (log : List Evt) (fuel : Nat)
    (hfuel : heightT t ≤ fuel) (hwf : wfT ctx t = true)
    (hndN : (idsF σ).Nodup) (hndC : (compIdsF σ).Nodup)
    (hmem : decT ctx t ∈ allSubF σ) :
    read_node ctx fuel parent
      { buf := write_node ctx t ++ R, scene := σ, unused := [], log := log }
    = { buf := R, scene := σ, unused := [], log := log } := by
  cases t with
  | node i a v cs ch =>
  cases fuel with
  | zero => simp [heightT] at hfuel
  | succ f =>
    obtain ⟨hlen, hvnd, hcwf, hchwf⟩ := wfT_parts hwf
    have hfind : findNodeF i σ = some (decT ctx (.node i a v cs ch)) := by
      have h := findNodeF_allSub hndN hmem
      rwa [decT_id, NTree.id] at h
    simp only [write_node, List.cons_append, List.append_assoc]
    simp only [read_node, rdNat_cons]
    have hcl : (decT ctx (NTree.node i a v cs ch)).attrs.length
        = ctx.nodeAttrs.length := by
      simp only [decT, NTree.attrs]
      exact blendAttrs_length (by simp) hlen
    rw [read_node_header_found hfind hcl hlen]
    have hblend : blendAttrs ctx.nodeAttrs
        (decT ctx (NTree.node i a v cs ch)).attrs a
        = (decT ctx (NTree.node i a v cs ch)).attrs := by
      simp only [decT, NTree.attrs]
      exact blendAttrs_idem (by simp) hlen
    rw [hblend]
    rw [updNodeF_id hndN hfind (setAttrsN_self _)]
    simp only [List.filter_nil]
    simp only [read_node_vars, rdNat_cons]
    have hvars : ∀ kv ∈ v,
        setVarL kv.1 kv.2 (decT ctx (NTree.node i a v cs ch)).vars
        = (decT ctx (NTree.node i a v cs ch)).vars := by
      intro kv hkv
      simp only [decT, NTree.vars]
      exact setVarL_mem hvnd hkv
    rw [rt2_vars hndN hfind v _ [] _ hvars]
    simp only [read_node_comps, rdNat_cons]
    have hcomps : ∀ c ∈ cs, wfC ctx c = true
        ∧ findCompF c.id σ = some (i, decComp ctx c) := by
      intro c hc
      refine ⟨hcwf c hc, ?_⟩
      have hmc : decComp ctx c ∈ (decT ctx (NTree.node i a v cs ch)).comps := by
        simp only [decT, NTree.comps]
        exact List.mem_map_of_mem _ hc
      have h := findCompF_allSub hndC hmem hmc
      rwa [decComp_id, decT_id, NTree.id] at h
    rw [rt2_comps hndC cs _ [] _ hcomps]
    simp only [rdNat_cons]
    have hch : ∀ w ∈ ch, decT ctx w ∈ allSubF σ := by
      intro w hw
      refine allSubF_children hmem ?_
      simp only [decT, NTree.children]
      exact decF_mem hw
    rw [rt2_list ctx ch σ i R log f
      (by simp only [heightT] at hfuel; omega) hchwf hndN hndC hch]
termination_by sizeOf t
theorem rt2_list (ctx : Ctx) (ts : List NTree) (σ : List NTree) (i : Nat)
    (R : List Nat) (log : List Evt) (fuel : Nat)
    (hfuel : heightF ts ≤ fuel) (hwf : wfF ctx ts = true)
    (hndN : (idsF σ).Nodup) (hndC : (compIdsF σ).Nodup)
    (hmem : ∀ w ∈ ts, decT ctx w ∈ allSubF σ) :
    iterRead (fun s => read_node ctx fuel (some i) s) ts.length
      { buf := write_nodesF ctx ts ++ R, scene := σ, unused := [],
        log := log }
    = { buf := R, scene := σ, unused := [], log := log } := by
  cases ts with
  | nil => rfl
  | cons t ts =>
    obtain ⟨hwt, hwts⟩ := wfF_parts hwf
    simp only [List.length_cons, iterRead, write_nodesF, List.append_assoc]
    rw [rt2_node ctx t σ (some i) (write_nodesF ctx ts ++ R) log fuel
      (le_trans (le_max_left _ _) hfuel) hwt hndN hndC (hmem t (by simp))]
    exact rt2_list ctx ts σ i R log fuel
      (le_trans (le_max_right _ _) hfuel) hwts hndN hndC
      (fun w hw => hmem w (by simp [hw]))
termination_by sizeOf ts
end

theorem rt2_roots (ctx : Ctx) (σ2 : List NTree) (R : List Nat)
    (fuel : Nat) :
    ∀ (ts : List NTree) (log : List Evt),
    heightF ts ≤ fuel → wfF ctx ts = true →
    (idsF σ2).Nodup → (compIdsF σ2).Nodup →
    (∀ w ∈ ts, decT ctx w ∈ allSubF σ2) →
    iterRead (fun s => read_node ctx fuel none s) ts.length
      { buf := write_nodesF ctx ts ++ R, scene := σ2, unused := [],
        log := log }
    = { buf := R, scene := σ2, unused := [], log := log } := by
  intro ts
  induction ts with
  | nil => intro log _ _ _ _ _; rfl
  | cons t ts ih =>
    intro log hfuel hwf hndN hndC hmem
    obtain ⟨hwt, hwts⟩ := wfF_parts hwf
    simp only [List.length_cons, iterRead, write_nodesF, List.append_assoc]
    rw [rt2_node ctx t σ2 none (write_nodesF ctx ts ++ R) log fuel
      (le_trans (le_max_left _ _) hfuel) hwt hndN hndC (hmem t (by simp))]
    exact ih log (le_trans (le_max_right _ _) hfuel) hwts hndN hndC
      (fun w hw => hmem w (by simp [hw]))

theorem second_decode (ctx : Ctx) (σ : List NTree)
    (hwf : wfF ctx σ = true) (hndN : (idsF σ).Nodup)
    (hndC : (compIdsF σ).Nodup) :
    read_state ctx ⟨[]⟩ (σ.length :: write_nodesF ctx σ) (decF ctx σ)
    = { buf := [], scene := decF ctx σ, unused := [], log := [] } := by
  simp only [read_state, rdNat_cons]
  have hfuel : heightF σ ≤ (σ.length :: write_nodesF ctx σ).length + 1 := by
    have h := heightF_le_write ctx σ
    simp only [List.length_cons]
    omega
  have h := rt2_roots ctx (decF ctx σ) []
    ((σ.length :: write_nodesF ctx σ).length + 1) σ [] hfuel hwf
    (by rw [idsF_decF]; exact hndN) (by rw [compIdsF_decF]; exact hndC)
    (fun w hw => mem_allSubF_of_mem (decF_mem hw))
  rw [List.append_nil] at h
  rw [h]
  simp

/-
Parent-link preservation: an in-place attribute update never changes which
node is the parent of which.
-/

theorem updNodeT_attr_id (i : Nat) (b : List Nat) (t : NTree) :
    (updNodeT i (setAttrsN b) t).id = t.id := by
  cases t with
  | node id a v c ch =>
    simp only [updNodeT]
    by_cases h : id = i
    · simp [h, setAttrsN, NTree.id]
    · simp [h, NTree.id]

theorem hasRootId_upd_attr (j i : Nat) (b : List Nat) (ts : List NTree) :
    hasRootId j (updNodeF i (setAttrsN b) ts) = hasRootId j ts := by
  induction ts with
  | nil => rfl
  | cons t ts ih =>
    simp only [updNodeF, hasRootId, updNodeT_attr_id, ih]

mutual
theorem parentOfT_upd_attr (j i : Nat) (b : List Nat) (t : NTree) :
    parentOfT j (updNodeT i (setAttrsN b) t) = parentOfT j t := by
  cases t with
  | node id a v c ch =>
    by_cases h : id = i
    · simp only [updNodeT, if_pos h, setAttrsN, parentOfT]
    · simp only [updNodeT, if_neg h, parentOfT, hasRootId_upd_attr,
        parentOfIn_upd_attr]
theorem parentOfIn_upd_attr (j i : Nat) (b : List Nat) (ts : List NTree) :
    parentOfIn j (updNodeF i (setAttrsN b) ts) = parentOfIn j ts := by
  cases ts with
  | nil => rfl
  | cons t ts =>
    simp only [updNodeF, parentOfIn, parentOfT_upd_attr,
      parentOfIn_upd_attr]
end

theorem parentOfF_upd_attr (j i : Nat) (b : List Nat) (σ : List NTree) :
    parentOfF j (updNodeF i (setAttrsN b) σ) = parentOfF j σ := by
  simp only [parentOfF, hasRootId_upd_attr, parentOfIn_upd_attr]

/-
Component removal removes every component with the removed id.
-/

mutual
theorem findCompT_removeCompT (ci : Nat) (t : NTree) :
    findCompT ci (removeCompT ci t) = none := by
  cases t with
  | node id a v cs ch =>
    simp only [removeCompT, findCompT]
    have hfil : (cs.filter (fun c => c.id ≠ ci)).find?
        (fun c => c.id == ci) = none := by
      refine List.find?_eq_none.mpr (fun c hc => ?_)
      have := List.of_mem_filter hc
      simp only [ne_eq, decide_eq_true_eq] at this
      simp [this]
    rw [hfil]
    exact findCompF_removeCompF ci ch
theorem findCompF_removeCompF (ci : Nat) (ts : List NTree) :
    findCompF ci (removeCompF ci ts) = none := by
  cases ts with
  | nil => rfl
  | cons t ts =>
    simp only [removeCompF, findCompF, findCompT_removeCompT]
    exact findCompF_removeCompF ci ts
end

/-
Claim theorems.
-/

/-- C1: evaluation at the failing input.  The buffer encodes one node
(id 1) carrying one component (id 5) of unregistered type 99, followed by
one child node (id 7).  The decoder logs the unknown-component error, but
only returns from read_component: decoding continues, the child node 7 is
still created from the bytes after the failing component, and read_state
returns normally with no failure indication — the whole-message abort the
claim (and the log text of the code) describes does not happen. -/
theorem C1_unknown_type_continues :
    read_state ctxU ⟨[]⟩ [1, 1, 0, 1, 5, 99, 1, 7, 0, 0, 0] []
    = { buf := [], scene := [.node 1 [] [] [] [.node 7 [] [] [] []]],
        unused := [],
        log := [Evt.createNode 1, Evt.abortComp 5, Evt.createNode 7] } := by
  rfl

set_option maxHeartbeats 1000000 in
/-- C2: evaluation at the failing input.  With one tracked node that has
expired (empty scene), write_state writes the root count from the registry
size before pruning expired entries: the message is [1] — a root count of
one followed by zero serialized roots.  When the tracked node is alive the
count does match (second conjunct). -/
theorem C2_count_written_before_prune :
    write_state ctx0 ⟨[1]⟩ [] = ([1], ⟨[]⟩)
    ∧ write_state ctx0 ⟨[1]⟩ [.node 1 [] [] [] []]
      = ([1, 1, 0, 0, 0], ⟨[1]⟩) := by
  exact ⟨rfl, rfl⟩

set_option maxHeartbeats 4000000 in
/-- C3 counterexample: root entity 1 (tracked) with child entity 2 is
synchronized by decoding an encoding of both; a second encoding omits
entity 2, yet after the second decode entity 2 is still present in the
scene — the claim that it no longer exists is false on the code, because
only registry-tracked nodes are candidates for removal. -/
theorem C3_counterexample :
    (read_state ctx0 ⟨[1]⟩ [1, 1, 0, 0, 1, 2, 0, 0, 0]
        [.node 1 [] [] [] []]).scene
      = [.node 1 [] [] [] [.node 2 [] [] [] []]]
    ∧ (findNodeF 2 (read_state ctx0 ⟨[1]⟩ [1, 1, 0, 0, 0]
        (read_state ctx0 ⟨[1]⟩ [1, 1, 0, 0, 1, 2, 0, 0, 0]
          [.node 1 [] [] [] []]).scene).scene).isSome = true := by
  exact ⟨rfl, rfl⟩

set_option maxHeartbeats 4000000 in
/-- C3 amended: omission-deletion applies exactly to the nodes registered
in the snapshot registry.  In the same scenario with entity 2 also
tracked, the second decode (which omits entity 2) removes entity 2 and
all its state while entity 1 remains. -/
theorem C3_tracked_deletion :
    read_state ctx0 ⟨[1, 2]⟩ [1, 1, 0, 0, 0]
      [.node 1 [] [] [] [.node 2 [] [] [] []]]
    = { buf := [], scene := [.node 1 [] [] [] []], unused := [2],
        log := [Evt.removeNode 2] } := by
  rfl

set_option maxHeartbeats 4000000 in
/-- C4: round-trip.  Writing a well-formed scene (attribute lists matching
the schemas, registered component types, duplicate-free node/component
ids and variable keys) with write_state, then reading the message into an
empty scene, reproduces the scene exactly up to the structural-parent
attribute: the decoded scene is the decode image decF, which after erasing
the parent-named attribute values (scrubF) coincides with the original;
the buffer is consumed exactly. -/
theorem C4_round_trip (ctx : Ctx) (σ : List NTree)
    (hwf : wfF ctx σ = true) (hndN : (idsF σ).Nodup)
    (hndC : (compIdsF σ).Nodup) :
    (read_state ctx ⟨[]⟩ (write_state ctx ⟨σ.map NTree.id⟩ σ).1 []).scene
      = decF ctx σ
    ∧ scrubF ctx
        (read_state ctx ⟨[]⟩ (write_state ctx ⟨σ.map NTree.id⟩ σ).1 []).scene
      = scrubF ctx σ
    ∧ (read_state ctx ⟨[]⟩ (write_state ctx ⟨σ.map NTree.id⟩ σ).1 []).buf
      = [] := by
  have hmsg : (write_state ctx ⟨σ.map NTree.id⟩ σ).1
      = σ.length :: write_nodesF ctx σ := by
    rw [write_state_live ctx σ hndN]
  rw [hmsg, decode_fresh ctx σ hwf hndN hndC]
  exact ⟨rfl, scrubF_decF ctx σ hwf, rfl⟩

/-- C4 witness: the round-trip theorem applied to a concrete two-node
scene with a user variable, a component, and a parent-named attribute. -/
theorem C4_round_trip_witness :
    (read_state ctxR ⟨[]⟩
        (write_state ctxR ⟨[sampleT].map NTree.id⟩ [sampleT]).1 []).scene
      = decF ctxR [sampleT]
    ∧ scrubF ctxR
        (read_state ctxR ⟨[]⟩
          (write_state ctxR ⟨[sampleT].map NTree.id⟩ [sampleT]).1 []).scene
      = scrubF ctxR [sampleT]
    ∧ (read_state ctxR ⟨[]⟩
        (write_state ctxR ⟨[sampleT].map NTree.id⟩ [sampleT]).1 []).buf
      = [] := by
  have h := C4_round_trip ctxR [sampleT] (by decide) (by decide) (by decide)
  exact h

/-- C5: idempotent re-apply.  Decoding the same encoding a second time
against the already-synchronized scene leaves the scene equal to the state
after the first decode, and the second pass performs no engine mutations
at all: its ghost log is empty, so no entity or component is created,
destroyed, or destroyed-and-recreated. -/
theorem C5_idempotent (ctx : Ctx) (σ : List NTree)
    (hwf : wfF ctx σ = true) (hndN : (idsF σ).Nodup)
    (hndC : (compIdsF σ).Nodup) :
    (read_state ctx ⟨[]⟩ (write_state ctx ⟨σ.map NTree.id⟩ σ).1
        (read_state ctx ⟨[]⟩ (write_state ctx ⟨σ.map NTree.id⟩ σ).1
          []).scene).scene
      = (read_state ctx ⟨[]⟩
          (write_state ctx ⟨σ.map NTree.id⟩ σ).1 []).scene
    ∧ (read_state ctx ⟨[]⟩ (write_state ctx ⟨σ.map NTree.id⟩ σ).1
        (read_state ctx ⟨[]⟩ (write_state ctx ⟨σ.map NTree.id⟩ σ).1
          []).scene).log = []
    ∧ (read_state ctx ⟨[]⟩ (write_state ctx ⟨σ.map NTree.id⟩ σ).1
        (read_state ctx ⟨[]⟩ (write_state ctx ⟨σ.map NTree.id⟩ σ).1
          []).scene).buf = [] := by
  have hmsg : (write_state ctx ⟨σ.map NTree.id⟩ σ).1
      = σ.length :: write_nodesF ctx σ := by
    rw [write_state_live ctx σ hndN]
  have hA := decode_fresh ctx σ hwf hndN hndC
  have hAscene : (read_state ctx ⟨[]⟩
      (σ.length :: write_nodesF ctx σ) []).scene = decF ctx σ := by
    rw [hA]
  rw [hmsg, hAscene, second_decode ctx σ hwf hndN hndC]
  exact ⟨rfl, rfl, rfl⟩

set_option maxHeartbeats 4000000 in
/-- C5 witness: the idempotence theorem applied to the concrete two-node
scene. -/
theorem C5_idempotent_witness :
    (read_state ctxR ⟨[]⟩
        (write_state ctxR ⟨[sampleT].map NTree.id⟩ [sampleT]).1
        (read_state ctxR ⟨[]⟩
          (write_state ctxR ⟨[sampleT].map NTree.id⟩ [sampleT]).1
          []).scene).scene
      = (read_state ctxR ⟨[]⟩
          (write_state ctxR ⟨[sampleT].map NTree.id⟩ [sampleT]).1 []).scene
    ∧ (read_state ctxR ⟨[]⟩
        (write_state ctxR ⟨[sampleT].map NTree.id⟩ [sampleT]).1
        (read_state ctxR ⟨[]⟩
          (write_state ctxR ⟨[sampleT].map NTree.id⟩ [sampleT]).1
          []).scene).log = []
    ∧ (read_state ctxR ⟨[]⟩
        (write_state ctxR ⟨[sampleT].map NTree.id⟩ [sampleT]).1
        (read_state ctxR ⟨[]⟩
          (write_state ctxR ⟨[sampleT].map NTree.id⟩ [sampleT]).1
          []).scene).buf = [] :=
  C5_idempotent ctxR [sampleT] (by decide) (by decide) (by decide)

/-- C6: decoding an entity record whose id matches a live node anywhere in
the scene reuses that node: the scene change is exactly an in-place
attribute update of that node (no creation), the id is erased from the
unused-candidate set, the ghost log is unchanged (no createNode and no
one-shot initNode — is_new is false), and the parent link of every node
is untouched. -/
theorem C6_reuse (ctx : Ctx) (σ : List NTree) (u : NTree) (i : Nat)
    (vals R unused : List Nat) (parent : Option Nat) (log : List Evt)
    (fuel : Nat) (hfind : findNodeF i σ = some u)
    (hcl : u.attrs.length = ctx.nodeAttrs.length)
    (hvl : vals.length = ctx.nodeAttrs.length) :
    read_node ctx (fuel + 1) parent
      { buf := i :: (write_network_attributes ctx.nodeAttrs vals
          ++ 0 :: 0 :: 0 :: R), scene := σ, unused := unused, log := log }
    = { buf := R,
        scene := updNodeF i
          (setAttrsN (blendAttrs ctx.nodeAttrs u.attrs vals)) σ,
        unused := unused.filter (fun j => j ≠ i), log := log }
    ∧ ∀ j, parentOfF j (updNodeF i
        (setAttrsN (blendAttrs ctx.nodeAttrs u.attrs vals)) σ)
      = parentOfF j σ := by
  constructor
  · simp only [read_node, rdNat_cons]
    rw [read_node_header_found hfind hcl hvl]
    simp only [read_node_vars, read_node_comps, rdNat_cons, iterRead]
  · intro j
    exact parentOfF_upd_attr j i _ σ

set_option maxHeartbeats 1000000 in
/-- C6 witness: reuse of the live node with id 3; the node keeps its
root-level parent link and the unused set loses id 3. -/
theorem C6_reuse_witness :
    (read_node ctx9 1 none
      { buf := 3 :: (write_network_attributes ctx9.nodeAttrs [9]
          ++ 0 :: 0 :: 0 :: []), scene := [.node 3 [7] [] [] []],
        unused := [3, 4], log := [] }
    = { buf := [],
        scene := updNodeF 3 (setAttrsN (blendAttrs ctx9.nodeAttrs
          (NTree.node 3 [7] [] [] []).attrs [9]))
          [.node 3 [7] [] [] []],
        unused := [3, 4].filter (fun j => j ≠ 3), log := [] })
    ∧ parentOfF 3 (updNodeF 3 (setAttrsN (blendAttrs ctx9.nodeAttrs
        (NTree.node 3 [7] [] [] []).attrs [9])) [.node 3 [7] [] [] []])
      = parentOfF 3 [.node 3 [7] [] [] []] :=
  ⟨(C6_reuse ctx9 [.node 3 [7] [] [] []] (.node 3 [7] [] [] []) 3 [9] []
      [3, 4] none [] 0 rfl rfl rfl).1,
    (C6_reuse ctx9 [.node 3 [7] [] [] []] (.node 3 [7] [] [] []) 3 [9] []
      [3, 4] none [] 0 rfl rfl rfl).2 3⟩

/-- C7: component identity handling.  If the component with the decoded
id exists and matches both type and owning entity, read_component updates
it in place: the scene change is exactly an attribute update of that
component and the ghost log is unchanged (no destruction, no creation).
If it exists but mismatches in type or owner, read_component first
removes it and then creates a fresh component of the decoded type with the
decoded id attached to the decoded entity, logging the removal before the
creation. -/
theorem C7_component_identity (ctx : Ctx) (σ : List NTree)
    (nid owner cid ty : Nat) (c : Comp) (R : List Nat)
    (unused : List Nat) (log : List Evt)
    (hfind : findCompF cid σ = some (owner, c)) :
    (c.type = ty → owner = nid →
      read_component ctx nid
        { buf := cid :: ty :: R, scene := σ, unused := unused, log := log }
      = { buf := (read_network_attributes (ctx.compAttrs ty) c.attrs R).2,
          scene := updCompF cid (fun d => { d with attrs :=
            (read_network_attributes (ctx.compAttrs ty) c.attrs R).1 }) σ,
          unused := unused, log := log })
    ∧ (¬ (c.type = ty ∧ owner = nid) → ctx.registered ty = true →
      read_component ctx nid
        { buf := cid :: ty :: R, scene := σ, unused := unused, log := log }
      = { buf := (read_network_attributes (ctx.compAttrs ty)
            ((ctx.compAttrs ty).map Prod.snd) R).2,
          scene := updCompF cid (fun d => { d with attrs :=
            (read_network_attributes (ctx.compAttrs ty)
              ((ctx.compAttrs ty).map Prod.snd) R).1 })
            (addComp nid ⟨cid, ty, (ctx.compAttrs ty).map Prod.snd⟩
              (removeCompF cid σ)),
          unused := unused,
          log := log ++ [Evt.removeComp cid, Evt.createComp cid] }) := by
  constructor
  · intro hty hown
    exact read_component_match hfind hty hown
  · intro hmis hreg
    exact read_component_mismatch hfind hmis hreg

/-- C7 witness: a scene with one component (id 5, type 2, on node 1).
Decoding a matching record updates it in place; decoding the same id with
owner mismatch (traversal node 9) removes and recreates it. -/
theorem C7_component_identity_witness :
    (read_component ctx0 1
      { buf := [5, 2], scene := [.node 1 [] [] [⟨5, 2, []⟩] []],
        unused := [], log := [] }
    = { buf := (read_network_attributes (ctx0.compAttrs 2)
          (Comp.mk 5 2 []).attrs []).2,
        scene := updCompF 5 (fun d => { d with attrs :=
          (read_network_attributes (ctx0.compAttrs 2)
            (Comp.mk 5 2 []).attrs []).1 }) [.node 1 [] [] [⟨5, 2, []⟩] []],
        unused := [], log := [] })
    ∧ (read_component ctx0 9
      { buf := [5, 2], scene := [.node 1 [] [] [⟨5, 2, []⟩] []],
        unused := [], log := [] }
    = { buf := (read_network_attributes (ctx0.compAttrs 2)
          ((ctx0.compAttrs 2).map Prod.snd) []).2,
        scene := updCompF 5 (fun d => { d with attrs :=
          (read_network_attributes (ctx0.compAttrs 2)
            ((ctx0.compAttrs 2).map Prod.snd) []).1 })
          (addComp 9 ⟨5, 2, (ctx0.compAttrs 2).map Prod.snd⟩
            (removeCompF 5 [.node 1 [] [] [⟨5, 2, []⟩] []])),
        unused := [],
        log := [Evt.removeComp 5, Evt.createComp 5] }) :=
  ⟨(C7_component_identity ctx0 [.node 1 [] [] [⟨5, 2, []⟩] []] 1 1 5 2
      ⟨5, 2, []⟩ [] [] [] rfl).1 rfl rfl,
    (C7_component_identity ctx0 [.node 1 [] [] [⟨5, 2, []⟩] []] 9 1 5 2
      ⟨5, 2, []⟩ [] [] [] rfl).2 (by decide) rfl⟩

theorem nonParentZip_cons_parent (dv v : Nat) (sr : List (Nat × Nat))
    (vr : List Nat) :
    ((((networkParentNode, dv) :: sr).zip (v :: vr)).filter
        (fun p => p.1.1 ≠ networkParentNode)).map Prod.snd
      = ((sr.zip vr).filter
          (fun p => p.1.1 ≠ networkParentNode)).map Prod.snd := by
  simp [List.zip_cons_cons, List.filter_cons]

theorem nonParentZip_cons_other {name : Nat} (dv v : Nat)
    (sr : List (Nat × Nat)) (vr : List Nat)
    (hn : ¬ name = networkParentNode) :
    ((((name, dv) :: sr).zip (v :: vr)).filter
        (fun p => p.1.1 ≠ networkParentNode)).map Prod.snd
      = v :: ((sr.zip vr).filter
          (fun p => p.1.1 ≠ networkParentNode)).map Prod.snd := by
  simp [List.zip_cons_cons, List.filter_cons, hn]

theorem parentSel_cons_parent (dv v : Nat) (sr : List (Nat × Nat))
    (vr : List Nat) :
    parentSel ((networkParentNode, dv) :: sr) (v :: vr)
      = v :: parentSel sr vr := by
  simp [parentSel, List.zip_cons_cons, List.filter_cons]

theorem parentSel_cons_other {name : Nat} (dv v : Nat)
    (sr : List (Nat × Nat)) (vr : List Nat)
    (hn : ¬ name = networkParentNode) :
    parentSel ((name, dv) :: sr) (v :: vr) = parentSel sr vr := by
  simp [parentSel, List.zip_cons_cons, List.filter_cons, hn]

/-- C8: the structural-parent attribute is excluded from the codec.  The
attribute segment written by write_network_attributes consists of exactly
the values at non-parent-named descriptor positions, and
read_network_attributes never changes the values at parent-named
positions of the object it decodes into, for every schema, value list,
and buffer. -/
theorem C8_parent_excluded :
    (∀ (schema : List (Nat × Nat)) (vals : List Nat),
      write_network_attributes schema vals
        = ((schema.zip vals).filter
            (fun p => p.1.1 ≠ networkParentNode)).map Prod.snd)
    ∧ (∀ (schema : List (Nat × Nat)) (vals buf : List Nat),
      parentSel schema (read_network_attributes schema vals buf).1
        = parentSel schema vals) := by
  constructor
  · intro schema
    induction schema with
    | nil => intro vals; rfl
    | cons sd sr ih =>
      intro vals
      obtain ⟨name, dv⟩ := sd
      cases vals with
      | nil => simp [write_network_attributes]
      | cons v vr =>
        by_cases hn : name = networkParentNode
        · subst hn
          rw [nonParentZip_cons_parent]
          simp only [write_network_attributes, if_pos rfl]
          exact ih vr
        · rw [nonParentZip_cons_other dv v sr vr hn]
          simp only [write_network_attributes, if_neg hn]
          rw [ih vr]
  · intro schema
    induction schema with
    | nil => intro vals buf; rfl
    | cons sd sr ih =>
      intro vals buf
      obtain ⟨name, dv⟩ := sd
      cases vals with
      | nil => simp [read_network_attributes, parentSel]
      | cons v vr =>
        by_cases hb : buf.isEmpty
        · simp only [read_network_attributes, hb, if_true]
        · simp only [read_network_attributes, hb, Bool.false_eq_true,
            if_false]
          by_cases hn : name = networkParentNode
          · subst hn
            simp only [if_pos rfl, if_true]
            rw [parentSel_cons_parent, parentSel_cons_parent]
            exact congrArg _ (ih vr buf)
          · simp only [if_neg hn]
            rw [parentSel_cons_other dv _ sr _ hn,
              parentSel_cons_other dv v sr vr hn]
            exact ih vr (rdNat buf).2

/-- C9 counterexample: the buffer [1] announces one node and then ends.
Decode does not stop or fail: the id read past the end yields 0, a fresh
entity with id 0 is created from that out-of-bounds data, the attribute
values stay at their defaults, and read_state completes normally (it has
no failure channel) — refuting the claim that no entity is applied from
data beyond the end of the buffer and that the call does not report clean
success. -/
theorem C9_underrun_counterexample :
    (read_state ctx9 ⟨[]⟩ [1] []).scene = [.node 0 [42] [] [] []]
    ∧ (findNodeF 0 (read_state ctx9 ⟨[]⟩ [1] []).scene).isSome = true
    ∧ (read_state ctx9 ⟨[]⟩ [1] []).log = [Evt.createNode 0] := by
  exact ⟨rfl, rfl, rfl⟩

set_option maxHeartbeats 1000000 in
/-- C9 amended: the per-attribute end-of-buffer check does hold — on an
exhausted buffer read_network_attributes applies nothing and leaves the
object unchanged — and a token read past the end returns zero instead of
failing, so decode continues with zero values and completes normally, as
the concrete truncated buffer [1] shows (an entity with id 0 is created
and the call ends with an empty remaining buffer and no error
indication). -/
theorem C9_underrun_amended :
    (∀ (schema : List (Nat × Nat)) (vals : List Nat),
      read_network_attributes schema vals [] = (vals, []))
    ∧ rdNat [] = (0, [])
    ∧ read_state ctx9 ⟨[]⟩ [1] []
      = { buf := [], scene := [.node 0 [42] [] [] []], unused := [],
          log := [Evt.createNode 0] } := by
  refine ⟨fun schema vals => ?_, rfl, rfl⟩
  cases schema with
  | nil => rfl
  | cons sd sr =>
    cases vals with
    | nil => rfl
    | cons v vr =>
      obtain ⟨name, dv⟩ := sd
      simp [read_network_attributes]

/-- C10: read_component is not atomic on failure.  When the existing
component with the decoded id mismatches in type or owner and the decoded
type is unregistered, the component is removed first, creation then fails,
and the function returns having permanently removed the component: the
final scene is the input scene minus that component, the log records the
removal followed by the abort, and no component with that id remains. -/
theorem C10_destroy_without_restore (ctx : Ctx) (σ : List NTree)
    (nid owner cid ty : Nat) (c : Comp) (R : List Nat)
    (unused : List Nat) (log : List Evt)
    (hfind : findCompF cid σ = some (owner, c))
    (hmis : ¬ (c.type = ty ∧ owner = nid))
    (hunreg : ctx.registered ty = false) :
    read_component ctx nid
      { buf := cid :: ty :: R, scene := σ, unused := unused, log := log }
    = { buf := R, scene := removeCompF cid σ, unused := unused,
        log := log ++ [Evt.removeComp cid, Evt.abortComp cid] }
    ∧ findCompF cid (removeCompF cid σ) = none :=
  ⟨read_component_abort hfind hmis hunreg, findCompF_removeCompF cid σ⟩

/-- C10 witness: component 5 of type 2 on node 1; a record with id 5 and
unregistered type 99 removes the component and aborts, leaving the scene
without component 5. -/
theorem C10_destroy_without_restore_witness :
    (read_component ctxU 1
      { buf := [5, 99], scene := [.node 1 [] [] [⟨5, 2, []⟩] []],
        unused := [], log := [] }
    = { buf := [], scene := removeCompF 5 [.node 1 [] [] [⟨5, 2, []⟩] []],
        unused := [], log := [Evt.removeComp 5, Evt.abortComp 5] })
    ∧ findCompF 5 (removeCompF 5 [.node 1 [] [] [⟨5, 2, []⟩] []]) = none :=
  C10_destroy_without_restore ctxU [.node 1 [] [] [⟨5, 2, []⟩] []]
    1 1 5 99 ⟨5, 2, []⟩ [] [] [] rfl (by decide) rfl
